import Mathlib

/-
  Verification of the vespa enum-store dictionary core
  (searchlib/attribute/enum_store_dictionary.cpp and enumstore.hpp).

  Shallow embedding notes:
  - The datastore `Index`/`EntryRef` handles are modelled as `Nat` positions into
    an append-only store list; the invalid `EntryRef()` is `Option.none` where a
    nullable handle is needed (posting refs, add results).
  - The ordered B-tree that the dictionary wraps is not part of the extracted
    sources (it lives in vespalib/btree).  Modelled from the spec: the tree is a
    list of (key, payload) pairs kept in ascending comparator (value) order;
    `lower_bound(key, cmp)` returns the first position whose element is not less
    than the key; `insert` inserts at such a position; `remove` deletes at a
    position, leaving the iterator on the successor; `frozen_view()` is a
    point-in-time snapshot (in a pure model, the current list value); `thaw`
    (copy-on-write before payload writes) is the identity on the value level.
  - Value comparators are pluggable total orders; we instantiate the exact
    comparator with the standard order on `Nat` values, and the folded
    (case/accent-insensitive, coarser) comparator with `fold : Nat → Nat`
    composed with the standard order, exactly as the C++ comparators compare
    `fold(a) < fold(b)`.  An `EntryRef` bound in a comparator resolves through
    the store; the invalid ref stands for the probe value.
-/

set_option maxHeartbeats 1000000

namespace Vespa

/-- An enum-store entry: the stored value and its document reference count
    (`{ value, ref_count }` addressed by an `Index`). -/
structure Entry where
  value : Nat
  ref_count : Nat
deriving DecidableEq

/-- The generation-reclaimed value store, append-only: position = `Index`. -/
abbrev Store := List Entry

/-- The dictionary tree content: (key `Index`, posting-ref payload) pairs in
    ascending value order.  `none` payload is the invalid `EntryRef()`. -/
abbrev Dict := List (Nat × Option Nat)

/-- Resolve an `Index` through the store to its value (`getValue`). -/
def valOf (s : Store) (i : Nat) : Nat := (s.getD i ⟨0, 0⟩).value

/-- Resolve an `Index` through the store to its reference count. -/
def refCountOf (s : Store) (i : Nat) : Nat := (s.getD i ⟨0, 0⟩).ref_count

/-- Keys (enum indices) of the dictionary tree in tree (value) order. -/
def keysOf (d : Dict) : List Nat := d.map Prod.fst

/-- Values of the dictionary tree in tree order. -/
def valuesOf (s : Store) (d : Dict) : List Nat := d.map (fun kv => valOf s kv.1)

/-- The tree with keys resolved to values, keeping payloads. -/
def annotate (s : Store) (d : Dict) : List (Nat × Option Nat) :=
  d.map (fun kv => (valOf s kv.1, kv.2))

/-- The tree is strictly sorted by value under the exact comparator: this is
    the at-most-one-entry-per-distinct-value invariant. -/
def dictSorted (s : Store) (d : Dict) : Prop := (valuesOf s d).Pairwise (· < ·)

/-- All tree keys address allocated store entries. -/
def validD (s : Store) (d : Dict) : Prop := ∀ kv ∈ d, kv.1 < s.length

/-- A comparator-monotone fold: the folded order is coarser than the exact
    order (folded-equal values are adjacent under exact order). -/
def Mono (fold : Nat → Nat) : Prop := ∀ a b : Nat, a ≤ b → fold a ≤ fold b

/-- Adjacent-pair constraint of the folded payload invariant: a payload holder
    may not have a folded-equal predecessor. -/
def foldedRel (fold : Nat → Nat) (a b : Nat × Option Nat) : Prop :=
  b.2.isSome → fold a.1 ≠ fold b.1

instance (fold : Nat → Nat) : DecidableRel (foldedRel fold) := fun a b =>
  inferInstanceAs (Decidable (b.2.isSome → fold a.1 ≠ fold b.1))

/-- The folded-dictionary payload invariant: within every maximal run of
    folded-equal keys at most one entry holds a non-null posting ref, and the
    holder is the first key of the run in exact order.  With a strictly sorted
    tree and a monotone fold this is equivalent to: no payload holder has a
    folded-equal predecessor. -/
def foldedOk (fold : Nat → Nat) (s : Store) (d : Dict) : Prop :=
  (annotate s d).Chain' (foldedRel fold)

instance (s : Store) (d : Dict) : Decidable (dictSorted s d) :=
  inferInstanceAs (Decidable ((valuesOf s d).Pairwise (· < ·)))

instance (s : Store) (d : Dict) : Decidable (validD s d) :=
  inferInstanceAs (Decidable (∀ kv ∈ d, kv.1 < s.length))

instance (fold : Nat → Nat) (s : Store) (d : Dict) : Decidable (foldedOk fold s d) :=
  inferInstanceAs (Decidable ((annotate s d).Chain' (foldedRel fold)))

/-- `lower_bound(EntryRef(), comp)` with a comparator bound to `probe`: the
    position of the first element not value-less than the probe.  Modelled from
    the spec (ordered index tree operation). -/
def lowerBound (s : Store) (probe : Nat) : Dict → Nat
  | [] => 0
  | kv :: rest => if valOf s kv.1 < probe then lowerBound s probe rest + 1 else 0

/-- `UniqueStoreAddResult`: the resolved `Index` and whether it was inserted. -/
structure UniqueStoreAddResult where
  ref : Option Nat
  inserted : Bool
deriving DecidableEq

namespace EnumStoreFoldedDictionary

/-- The insert path of `EnumStoreFoldedDictionary::add` after the duplicate
    check: `insertEntry()` (the `addEnum` allocation callback, which appends
    `value = probe` with zero ref count to the store), `_dict.insert(it, newRef,
    EntryRef())`, then `++it` and, when the successor exists, holds a valid
    posting ref and is not folded-greater than the new key, move that posting
    ref from the successor to the new key (`thaw`/`writeData`). -/
def addInsert (fold : Nat → Nat) (s : Store) (probe : Nat) (d : Dict) (pos : Nat) :
    Store × Dict × UniqueStoreAddResult :=
  let newRef := s.length
  let s2 := s ++ [⟨probe, 0⟩]
  let d2 := d.take pos ++ (newRef, (none : Option Nat)) :: d.drop pos
  match d2[pos + 1]? with
  | some kv2 =>
    if kv2.2.isSome ∧ ¬ fold (valOf s2 newRef) < fold (valOf s2 kv2.1) then
      (s2, (d2.set (pos + 1) (kv2.1, none)).set pos (newRef, kv2.2), ⟨some newRef, true⟩)
    else (s2, d2, ⟨some newRef, true⟩)
  | none => (s2, d2, ⟨some newRef, true⟩)

/-- `EnumStoreFoldedDictionary::add(comp, insertEntry)` with the exact
    comparator bound to `probe` and the `EnumStoreT::addEnum` allocation
    callback: `lowerBound`, duplicate check (`it.valid() &&
    !comp(EntryRef(), it.getKey())` returns the existing key with
    `inserted=false`), else the insert path. -/
def add (fold : Nat → Nat) (s : Store) (probe : Nat) (d : Dict) :
    Store × Dict × UniqueStoreAddResult :=
  let pos := lowerBound s probe d
  match d[pos]? with
  | some kv =>
    if ¬ probe < valOf s kv.1 then (s, d, ⟨some kv.1, false⟩)
    else addInsert fold s probe d pos
  | none => addInsert fold s probe d pos

/-- `EnumStoreFoldedDictionary::remove(comp, ref)`: `lowerBound(ref, comp)`
    (the comparator resolves both sides through the store), assert the element
    is `ref` (the non-matching branches model states the C++ `assert` rules
    out), `_dict.remove(it)`, then when the removed key held a valid posting
    ref and the successor exists, holds none and is not folded-greater, copy
    the posting ref to the successor. -/
def remove (fold : Nat → Nat) (s : Store) (d : Dict) (ref : Nat) : Dict :=
  let pos := lowerBound s (valOf s ref) d
  match d[pos]? with
  | some kv =>
    if kv.1 = ref then
      let d2 := d.eraseIdx pos
      match d2[pos]? with
      | some kv2 =>
        if kv.2.isSome ∧ kv2.2 = none ∧ ¬ fold (valOf s ref) < fold (valOf s kv2.1) then
          d2.set pos (kv2.1, kv.2)
        else d2
      | none => d2
    else d
  | none => d

end EnumStoreFoldedDictionary

/-- Recursive reformulation of `EnumStoreFoldedDictionary.add` used for proofs
    (shown equal to the positional translation under key validity). -/
def addRec (fold : Nat → Nat) (s : Store) (probe : Nat) :
    Dict → Store × Dict × UniqueStoreAddResult
  | [] => (s ++ [⟨probe, 0⟩], [(s.length, none)], ⟨some s.length, true⟩)
  | kv :: rest =>
    if valOf s kv.1 < probe then
      let r := addRec fold s probe rest
      (r.1, kv :: r.2.1, r.2.2)
    else if ¬ probe < valOf s kv.1 then
      (s, kv :: rest, ⟨some kv.1, false⟩)
    else if kv.2.isSome ∧ ¬ fold probe < fold (valOf s kv.1) then
      (s ++ [⟨probe, 0⟩], (s.length, kv.2) :: (kv.1, none) :: rest, ⟨some s.length, true⟩)
    else
      (s ++ [⟨probe, 0⟩], (s.length, none) :: kv :: rest, ⟨some s.length, true⟩)

/-- Recursive reformulation of `EnumStoreFoldedDictionary.remove` used for
    proofs (shown equal to the positional translation). -/
def removeRec (fold : Nat → Nat) (s : Store) (ref : Nat) : Dict → Dict
  | [] => []
  | kv :: rest =>
    if valOf s kv.1 < valOf s ref then kv :: removeRec fold s ref rest
    else if kv.1 = ref then
      match rest with
      | [] => []
      | kv2 :: rest2 =>
        if kv.2.isSome ∧ kv2.2 = none ∧ ¬ fold (valOf s ref) < fold (valOf s kv2.1) then
          (kv2.1, kv.2) :: rest2
        else kv2 :: rest2
    else kv :: rest

/-- Pure (value-annotated) version of the folded insert, on (value, payload)
    pairs. -/
def insertFolded (fold : Nat → Nat) (probe : Nat) :
    List (Nat × Option Nat) → List (Nat × Option Nat)
  | [] => [(probe, none)]
  | vp :: rest =>
    if vp.1 < probe then vp :: insertFolded fold probe rest
    else if vp.2.isSome ∧ ¬ fold probe < fold vp.1 then
      (probe, vp.2) :: (vp.1, none) :: rest
    else (probe, none) :: vp :: rest

/-- Pure (value-annotated) version of the folded remove, on (value, payload)
    pairs. -/
def removeFolded (fold : Nat → Nat) (v : Nat) :
    List (Nat × Option Nat) → List (Nat × Option Nat)
  | [] => []
  | vp :: rest =>
    if vp.1 < v then vp :: removeFolded fold v rest
    else if vp.1 = v then
      match rest with
      | [] => []
      | vp2 :: rest2 =>
        if vp.2.isSome ∧ vp2.2 = none ∧ ¬ fold v < fold vp2.1 then
          (vp2.1, vp.2) :: rest2
        else vp2 :: rest2
    else vp :: rest

/-- Sorted insertion of a value into a value list (the effect of `add` on the
    in-order value traversal). -/
def insertVal (probe : Nat) : List Nat → List Nat
  | [] => [probe]
  | v :: rest => if v < probe then v :: insertVal probe rest else probe :: v :: rest

/-- A mutation step against the folded dictionary: `addEnum`-driven `add` or a
    `remove` of a currently present key (the C++ `remove` asserts presence). -/
inductive DictOp where
  | addOp (v : Nat)
  | removeOp (r : Nat)

/-- Apply one mutation step to (store, tree). -/
def applyOp (fold : Nat → Nat) (st : Store × Dict) : DictOp → Store × Dict
  | .addOp v =>
    let r := EnumStoreFoldedDictionary.add fold st.1 v st.2
    (r.1, r.2.1)
  | .removeOp r =>
    if r ∈ keysOf st.2 then (st.1, EnumStoreFoldedDictionary.remove fold st.1 st.2 r)
    else st

/-- Apply a sequence of mutation steps starting from the empty store/tree. -/
def applyOps (fold : Nat → Nat) (ops : List DictOp) : Store × Dict :=
  ops.foldl (applyOp fold) ([], [])

/-- `frozen_view()`.  Modelled from the spec: a read-only point-in-time
    snapshot of the tree; in a pure model the snapshot is the current list
    value (spec guarantees the view is stable while the live tree mutates). -/
def frozenView (d : Dict) : Dict := d

/-- `EnumStoreDictionary::findFrozenIndex(cmp, idx)`: exact lookup through a
    frozen view.  The tree `find` (modelled from the spec) is `lower_bound`
    plus an equality check; returns the matching key or `none`. -/
def findFrozenIndex (s : Store) (probe : Nat) (d : Dict) : Option Nat :=
  let snap := frozenView d
  match snap[lowerBound s probe snap]? with
  | some kv => if ¬ probe < valOf s kv.1 then some kv.1 else none
  | none => none

/-- `lower_bound` under the folded comparator bound to `probe`. -/
def foldedLowerBound (fold : Nat → Nat) (s : Store) (probe : Nat) : Dict → Nat
  | [] => 0
  | kv :: rest =>
    if fold (valOf s kv.1) < fold probe then foldedLowerBound fold s probe rest + 1 else 0

/-- `EnumStoreDictionary::findMatchingEnums(cmp)` with the folded comparator
    bound to `probe`: find in a frozen view (modelled from the spec as
    `lower_bound`), then collect keys forward while
    `!cmp(EntryRef(), itr.getKey())`. -/
def findMatchingEnums (fold : Nat → Nat) (s : Store) (probe : Nat) (d : Dict) : List Nat :=
  let snap := frozenView d
  (((snap.drop (foldedLowerBound fold s probe snap)).takeWhile
      (fun kv => decide (¬ fold probe < fold (valOf s kv.1)))).map Prod.fst)

/-- Insert into a `std::set<Index>` modelled as a sorted duplicate-free list. -/
def setInsert (x : Nat) : List Nat → List Nat
  | [] => [x]
  | y :: rest =>
    if x < y then x :: y :: rest
    else if x = y then y :: rest
    else y :: setInsert x rest

/-- `EnumStoreT::freeUnusedEnum(idx, unused)`: if the entry's ref count is
    zero, insert the index into the unused set and hand it to the store's hold
    list.  The accumulator is (unused set, hold list). -/
def freeUnusedEnum (s : Store) (idx : Nat) (acc : List Nat × List Nat) :
    List Nat × List Nat :=
  if refCountOf s idx = 0 then (setInsert idx acc.1, acc.2 ++ [idx]) else acc

/-- `EnumStoreDictionary::removeUnusedEnums(unused, cmp)`: remove each unused
    index from the tree (`this->remove` dispatches to the folded remove). -/
def removeUnusedEnums (fold : Nat → Nat) (s : Store) (d : Dict) (unused : List Nat) : Dict :=
  unused.foldl (EnumStoreFoldedDictionary.remove fold s) d

/-- `EnumStoreDictionary::freeUnusedEnums(cmp)` (full sweep): scan every tree
    key with `freeUnusedEnum`, then batch-remove the unused set.  Returns the
    new tree and the hold list handed to the store. -/
def freeUnusedEnums (fold : Nat → Nat) (s : Store) (d : Dict) : Dict × List Nat :=
  let acc := (keysOf d).foldl (fun a k => freeUnusedEnum s k a) ([], [])
  (removeUnusedEnums fold s d acc.1, acc.2)

/-- `EnumStoreDictionary::freeUnusedEnums(toRemove, cmp)` (candidate-set
    variant): scan only the candidate indices, then batch-remove. -/
def freeUnusedEnumsOnCandidates (fold : Nat → Nat) (s : Store) (d : Dict)
    (toRemove : List Nat) : Dict × List Nat :=
  let acc := toRemove.foldl (fun a k => freeUnusedEnum s k a) ([], [])
  (removeUnusedEnums fold s d acc.1, acc.2)

/-- `vespalib::MemoryUsage` slice cached by `update_stat`. -/
structure MemoryUsage where
  usedBytes : Nat
  deadBytes : Nat

/-- `vespalib::AddressSpace` slice cached by `update_stat`. -/
structure AddressSpaceUsage where
  used : Nat
  dead : Nat

/-- `CompactionStrategy` ratios.  The C++ ratios are `double`; reals are
    modelled as rationals. -/
structure CompactionStrategy where
  maxDeadBytesRatio : ℚ
  maxDeadAddressSpaceRatio : ℚ

/-- Minimum dead bytes in the enum store before compaction is considered. -/
def DEAD_BYTES_SLACK : Nat := 0x10000

/-- Minimum dead address space before compaction is considered. -/
def DEAD_ADDRESS_SPACE_SLACK : Nat := 0x10000

/-- `EnumStoreT::consider_compact(compaction_strategy)` over the cached stats:
    compact (returning a remapper carrying the triggering dimensions, stood in
    by the `compact_worst` arguments) iff a dimension has dead amount at least
    its slack and strictly above used times the configured ratio; otherwise
    return a null pointer (`none`). -/
def consider_compact (mu : MemoryUsage) (asu : AddressSpaceUsage)
    (cs : CompactionStrategy) : Option (Bool × Bool) :=
  let compact_memory := DEAD_BYTES_SLACK ≤ mu.deadBytes ∧
    (mu.usedBytes : ℚ) * cs.maxDeadBytesRatio < (mu.deadBytes : ℚ)
  let compact_address_space := DEAD_ADDRESS_SPACE_SLACK ≤ asu.dead ∧
    (asu.used : ℚ) * cs.maxDeadAddressSpaceRatio < (asu.dead : ℚ)
  if compact_memory ∨ compact_address_space then
    some (decide compact_memory, decide compact_address_space)
  else none

/-- The two dictionary instantiations: `EnumTree` (no leaf data) and
    `EnumPostingTree` (posting-ref leaf data). -/
inductive DictionaryVariant where
  | enumTree
  | enumPostingTree
deriving DecidableEq

/-- `DictionaryT::LeafNodeType::hasData()`. -/
def variantHasData : DictionaryVariant → Bool
  | .enumTree => false
  | .enumPostingTree => true

/-- An `EnumStoreDictionary<DictionaryT>` object: its template variant and its
    tree. -/
structure EnumStoreDictionaryState where
  variant : DictionaryVariant
  dict : Dict

/-- `EnumStoreDictionary<DictionaryT>::getPostingDictionary()`: the
    `EnumTree` specialization is `LOG_ABORT("should not be reached")`
    (modelled as `Except.error`); the `EnumPostingTree` specialization returns
    the tree. -/
def getPostingDictionary (st : EnumStoreDictionaryState) : Except String Dict :=
  match st.variant with
  | .enumTree => .error "should not be reached"
  | .enumPostingTree => .ok st.dict

/- Serialization model: for bulk load/dump the store holds the fixed-size
   binary records themselves (byte lists); `sizeof(DataType)` is positive and
   is written `szp + 1`. -/

/-- The value store as allocated binary records. -/
abbrev ByteStore := List (List Nat)

/-- `EnumStoreT::load_unique_value(src, available, idx)`: fail with `-1` when
    fewer than `sizeof(DataType)` bytes remain, else allocate the record and
    return its size.  (The C++ debug assert that input values are strictly
    increasing is not modelled.)  Returns (size, new store, new index). -/
def load_unique_value (szp : Nat) (src : List Nat) (store : ByteStore) :
    Int × ByteStore × Nat :=
  if src.length < szp + 1 then (-1, store, 0)
  else ((szp + 1 : Nat), store ++ [src.take (szp + 1)], store.length)

/-- `EnumStoreT::load_unique_values_internal(src, available, idx)`: decode
    records while bytes remain, propagating the negative sentinel; on success
    the result is the number of bytes consumed.  Returns (size, store, index
    vector). -/
def load_unique_values_internal (szp : Nat) (src : List Nat) (store : ByteStore)
    (idxs : List Nat) : Int × ByteStore × List Nat :=
  match _h : src with
  | [] => (0, store, idxs)
  | _ :: _ =>
    let r := load_unique_value szp src store
    if r.1 < 0 then (r.1, store, idxs)
    else
      let rest := load_unique_values_internal szp (src.drop (szp + 1)) r.2.1
        (idxs ++ [r.2.2])
      if rest.1 < 0 then rest else (rest.1 + r.1, rest.2.1, rest.2.2)
termination_by src.length
decreasing_by
  simp_all
  omega

/-- `IEnumStoreDictionary::build(idx)`.  Modelled from the spec: bulk-build the
    tree from the sorted index list in one pass. -/
def build (idxs : List Nat) : List Nat := idxs

/-- `EnumStoreT::load_unique_values(src, available, idx)`: run the internal
    loader and build the dictionary only on success.  Returns (size, store,
    index vector, dictionary key list). -/
def load_unique_values (szp : Nat) (src : List Nat) (store : ByteStore)
    (dict : List Nat) : Int × ByteStore × List Nat × List Nat :=
  let r := load_unique_values_internal szp src store []
  if 0 ≤ r.1 then (r.1, r.2.1, r.2.2, build r.2.2) else (r.1, r.2.1, r.2.2, dict)

/-- The complete `sizeof(DataType)`-sized records at the front of a buffer. -/
def chunksOf (szp : Nat) (src : List Nat) : List (List Nat) :=
  if h : src.length < szp + 1 then []
  else src.take (szp + 1) :: chunksOf szp (src.drop (szp + 1))
termination_by src.length
decreasing_by
  simp_all
  omega

/-- `EnumStoreT::writeValues(writer, idxs)`: emit the raw fixed-size record of
    every index, in order, to the buffer writer (modelled as the emitted byte
    list). -/
def writeValues (store : ByteStore) (idxs : List Nat) : List Nat :=
  (idxs.map (fun i => store.getD i [])).flatten

/-- The loop of `EnumStoreDictionary::writeAllValues`: iterate the tree keys in
    order, flushing the batch vector through `writeValues` whenever it reaches
    its reserved capacity (`BATCHSIZE = 1000`), with a final flush. -/
def writeAllValuesLoop (store : ByteStore) (keys idxs out : List Nat) : List Nat :=
  match keys with
  | [] => if idxs.isEmpty then out else out ++ writeValues store idxs
  | k :: rest =>
    if 1000 ≤ idxs.length then
      writeAllValuesLoop store rest [k] (out ++ writeValues store idxs)
    else
      writeAllValuesLoop store rest (idxs ++ [k]) out

/-- `EnumStoreDictionary::writeAllValues(writer, rootRef)`: the batched ordered
    dump over the in-order key sequence of the tree reachable from the root. -/
def writeAllValues (store : ByteStore) (keys : List Nat) : List Nat :=
  writeAllValuesLoop store keys [] []

/-- The sequence of index batches flushed by `writeAllValues` (instrumented
    view of the same loop). -/
def writeAllValuesBatches (keys idxs : List Nat) : List (List Nat) :=
  match keys with
  | [] => if idxs.isEmpty then [] else [idxs]
  | k :: rest =>
    if 1000 ≤ idxs.length then idxs :: writeAllValuesBatches rest [k]
    else writeAllValuesBatches rest (idxs ++ [k])

/-! Lemmas and claim theorems. -/

lemma length_mod_of_lt {szp n : Nat} (h0 : 0 < n) (hlt : n < szp + 1) :
    ¬ (szp + 1) ∣ n := by
  intro hd
  rcases hd with ⟨c, hc⟩
  rcases c with _ | c
  · omega
  · simp [Nat.mul_succ] at hc; omega

lemma load_unique_values_internal_spec (szp : Nat) :
    ∀ (fuel : Nat) (src : List Nat), src.length ≤ fuel →
      ∀ (store : ByteStore) (idxs : List Nat),
      load_unique_values_internal szp src store idxs =
        ((if (szp + 1) ∣ src.length then (src.length : Int) else -1),
          store ++ chunksOf szp src,
          idxs ++ List.range' store.length (src.length / (szp + 1))) := by
  intro fuel
  induction fuel with
  | zero =>
    intro src hle store idxs
    have hnil : src = [] := List.length_eq_zero.mp (by omega)
    subst hnil
    rw [load_unique_values_internal, chunksOf]
    simp
  | succ n ih =>
    intro src hle store idxs
    match src with
    | [] =>
      rw [load_unique_values_internal, chunksOf]
      simp
    | a :: as =>
      rw [load_unique_values_internal]
      by_cases hlt : (a :: as).length < szp + 1
      · simp only [load_unique_value, if_pos hlt]
        rw [if_pos (by norm_num)]
        rw [chunksOf, dif_pos hlt,
          if_neg (length_mod_of_lt (by simp) hlt), Nat.div_eq_of_lt hlt]
        simp
      · simp only [load_unique_value, if_neg hlt]
        rw [if_neg (by push_cast; omega)]
        have hlen : ((a :: as).drop (szp + 1)).length = (a :: as).length - (szp + 1) := by
          simp
        rw [ih ((a :: as).drop (szp + 1)) (by simp at hle ⊢; omega)]
        have hdvd_iff : (szp + 1) ∣ (a :: as).length ↔
            (szp + 1) ∣ ((a :: as).length - (szp + 1)) := by
          constructor
          · intro h; exact Nat.dvd_sub' h dvd_rfl
          · intro h
            have hsum : (a :: as).length = ((a :: as).length - (szp + 1)) + (szp + 1) := by
              omega
            rw [hsum]; exact Nat.dvd_add h dvd_rfl
        have hdiv : (a :: as).length / (szp + 1) =
            ((a :: as).length - (szp + 1)) / (szp + 1) + 1 :=
          Nat.div_eq_sub_div (by omega) (by omega)
        have hchunks : chunksOf szp (a :: as) =
            (a :: as).take (szp + 1) :: chunksOf szp ((a :: as).drop (szp + 1)) := by
          rw [chunksOf, dif_neg hlt]
        rw [hlen, hchunks]
        have e2 : (store ++ [(a :: as).take (szp + 1)]) ++
            chunksOf szp ((a :: as).drop (szp + 1)) =
            store ++ ((a :: as).take (szp + 1) :: chunksOf szp ((a :: as).drop (szp + 1))) := by
          simp
        have e3 : (idxs ++ [store.length]) ++
            List.range' ((store ++ [(a :: as).take (szp + 1)]).length)
              (((a :: as).length - (szp + 1)) / (szp + 1)) =
            idxs ++ List.range' store.length ((a :: as).length / (szp + 1)) := by
          rw [hdiv, List.range'_succ]
          simp [List.append_assoc]
        by_cases hdvd : (szp + 1) ∣ ((a :: as).length - (szp + 1))
        · rw [if_pos hdvd, if_pos (hdvd_iff.mpr hdvd)]
          rw [if_neg (by push_cast; omega)]
          have e1 : ((((a :: as).length - (szp + 1) : Nat) : Int) + ((szp + 1 : Nat) : Int)) =
              (((a :: as).length : Nat) : Int) := by
            push_cast
            simp only [List.length_cons] at hlt ⊢
            omega
          rw [e1, e2, e3]
        · rw [if_neg hdvd, if_neg (fun h => hdvd (hdvd_iff.mp h))]
          rw [if_pos (by norm_num)]
          rw [e2, e3]

lemma chunksOf_length (szp : Nat) :
    ∀ src : List Nat, (chunksOf szp src).length = src.length / (szp + 1) := by
  intro src
  induction src using chunksOf.induct szp with
  | case1 src hlt =>
    rw [chunksOf, dif_pos hlt, Nat.div_eq_of_lt hlt]
    rfl
  | case2 src hge ih =>
    rw [chunksOf, dif_neg hge]
    simp only [List.length_cons, List.length_drop] at ih ⊢
    rw [ih]
    conv_rhs => rw [Nat.div_eq_sub_div (b := szp + 1) (by omega) (by omega)]

lemma chunksOf_flatten (szp : Nat) :
    ∀ src : List Nat,
      (chunksOf szp src).flatten = src.take ((szp + 1) * (src.length / (szp + 1))) := by
  intro src
  induction src using chunksOf.induct szp with
  | case1 src hlt =>
    rw [chunksOf, dif_pos hlt, Nat.div_eq_of_lt hlt]
    simp
  | case2 src hge ih =>
    rw [chunksOf, dif_neg hge, List.flatten_cons]
    simp only [List.length_drop] at ih
    rw [ih]
    have hdiv : src.length / (szp + 1) = (src.length - (szp + 1)) / (szp + 1) + 1 :=
      Nat.div_eq_sub_div (by omega) (by omega)
    have hmul : (szp + 1) * (src.length / (szp + 1)) =
        (szp + 1) + (szp + 1) * ((src.length - (szp + 1)) / (szp + 1)) := by
      rw [hdiv, Nat.mul_succ]
      omega
    conv_rhs => rw [hmul, List.take_add]

/-- Claim C6: `load_unique_values_internal` returns the negative sentinel `-1`
    exactly when the byte count is not a multiple of the fixed record size
    (truncation mid-record); on success it returns the full byte count and
    appends one freshly allocated `Index` per record, in input order (record
    size is `szp + 1`, since `sizeof(DataType)` is positive). -/
theorem c6_load_truncation_sentinel (szp : Nat) (src : List Nat) (store : ByteStore) :
    load_unique_values_internal szp src store [] =
      ((if (szp + 1) ∣ src.length then (src.length : Int) else -1),
        store ++ chunksOf szp src,
        List.range' store.length (src.length / (szp + 1)))
    ∧ (chunksOf szp src).length = src.length / (szp + 1) := by
  rw [load_unique_values_internal_spec szp src.length src le_rfl]
  exact ⟨by simp, chunksOf_length szp src⟩

/-- Claim C10: when the bulk load fails on truncated input, the dictionary is
    not built (it is returned unchanged), but the load is not atomic: every
    complete record before the truncation point stays allocated in the store
    and its index stays in the output index vector — no rollback. -/
theorem c10_load_failure_not_atomic (szp : Nat) (src : List Nat) (store : ByteStore)
    (dict : List Nat) (hnd : ¬ (szp + 1) ∣ src.length) :
    load_unique_values szp src store dict =
      (-1, store ++ chunksOf szp src,
        List.range' store.length (src.length / (szp + 1)), dict)
    ∧ (chunksOf szp src).flatten = src.take ((szp + 1) * (src.length / (szp + 1))) := by
  constructor
  · rw [load_unique_values, load_unique_values_internal_spec szp src.length src le_rfl,
      if_neg hnd]
    norm_num
  · exact chunksOf_flatten szp src

theorem c10_load_failure_not_atomic_witness :
    ¬ (1 + 1) ∣ ([9, 8, 7] : List Nat).length ∧
    load_unique_values 1 [9, 8, 7] [] [5] = (-1, [[9, 8]], [0], [5]) ∧
    (chunksOf 1 [9, 8, 7]).flatten = [9, 8] := by
  have h := c10_load_failure_not_atomic 1 [9, 8, 7] [] [5] (by decide)
  have hch : chunksOf 1 [9, 8, 7] = [[9, 8]] := by
    rw [chunksOf]
    norm_num
    rw [chunksOf]
    norm_num
  refine ⟨by decide, ?_, ?_⟩
  · rw [h.1, hch]
    simp [List.range']
  · rw [h.2]
    decide

lemma writeValues_append (store : ByteStore) (a b : List Nat) :
    writeValues store (a ++ b) = writeValues store a ++ writeValues store b := by
  simp [writeValues]

lemma writeAllValuesLoop_eq_batches (store : ByteStore) :
    ∀ (keys idxs out : List Nat),
      writeAllValuesLoop store keys idxs out =
        out ++ ((writeAllValuesBatches keys idxs).map (writeValues store)).flatten := by
  intro keys
  induction keys with
  | nil =>
    intro idxs out
    rw [writeAllValuesLoop, writeAllValuesBatches]
    by_cases h : idxs.isEmpty
    · rw [if_pos h, if_pos h]; simp
    · rw [if_neg h, if_neg h]; simp
  | cons k rest ih =>
    intro idxs out
    rw [writeAllValuesLoop, writeAllValuesBatches]
    by_cases h : 1000 ≤ idxs.length
    · rw [if_pos h, if_pos h, ih]
      simp [List.append_assoc]
    · rw [if_neg h, if_neg h, ih]

lemma writeAllValuesBatches_flatten :
    ∀ (keys idxs : List Nat), (writeAllValuesBatches keys idxs).flatten = idxs ++ keys := by
  intro keys
  induction keys with
  | nil =>
    intro idxs
    rw [writeAllValuesBatches]
    by_cases h : idxs.isEmpty
    · rw [if_pos h]
      simp only [List.isEmpty_iff] at h
      simp [h]
    · rw [if_neg h]; simp
  | cons k rest ih =>
    intro idxs
    rw [writeAllValuesBatches]
    by_cases h : 1000 ≤ idxs.length
    · rw [if_pos h]
      simp [ih]
    · rw [if_neg h, ih]
      simp

lemma writeAllValuesBatches_sizes :
    ∀ (keys idxs : List Nat), idxs.length ≤ 1000 →
      (writeAllValuesBatches keys idxs).all (fun b => decide (b.length ≤ 1000)) = true := by
  intro keys
  induction keys with
  | nil =>
    intro idxs hle
    rw [writeAllValuesBatches]
    by_cases h : idxs.isEmpty
    · rw [if_pos h]; rfl
    · rw [if_neg h]; simpa using hle
  | cons k rest ih =>
    intro idxs hle
    rw [writeAllValuesBatches]
    by_cases h : 1000 ≤ idxs.length
    · rw [if_pos h]
      simp only [List.all_cons, Bool.and_eq_true, decide_eq_true_eq]
      exact ⟨hle, ih [k] (by simp)⟩
    · rw [if_neg h]
      exact ih (idxs ++ [k]) (by simp; omega)

lemma writeValues_flatten (store : ByteStore) :
    ∀ bs : List (List Nat),
      (bs.map (writeValues store)).flatten = writeValues store bs.flatten := by
  intro bs
  induction bs with
  | nil => simp [writeValues]
  | cons b rest ih => simp [writeValues_append, ih]

/-- Claim C7: `writeAllValues` visits the in-order key sequence of the tree
    exactly once, flushing through `writeValues` in batches of at most 1000
    indices, and the concatenated output equals the unbatched in-order dump:
    the flushed batches concatenate to exactly the key sequence, every batch
    has at most 1000 indices, and the emitted bytes equal `writeValues` of the
    whole key sequence. -/
theorem c7_writeAllValues_batched_dump (store : ByteStore) (keys : List Nat) :
    writeAllValues store keys = writeValues store keys
    ∧ (writeAllValuesBatches keys []).flatten = keys
    ∧ (writeAllValuesBatches keys []).all (fun b => decide (b.length ≤ 1000)) = true := by
  refine ⟨?_, ?_, ?_⟩
  · rw [writeAllValues, writeAllValuesLoop_eq_batches, writeValues_flatten,
      writeAllValuesBatches_flatten]
    simp
  · simpa using writeAllValuesBatches_flatten keys []
  · exact writeAllValuesBatches_sizes keys [] (by simp)

/-- Claim C4: `consider_compact` returns a non-null remapper exactly when dead
    bytes are at least 65536 and strictly exceed used bytes times the
    strategy's max dead-bytes ratio, or dead address space is at least 65536
    and strictly exceeds used address space times the max dead-address-space
    ratio; otherwise it returns null. -/
theorem c4_consider_compact_policy (mu : MemoryUsage) (asu : AddressSpaceUsage)
    (cs : CompactionStrategy) :
    ((consider_compact mu asu cs).isSome ↔
      ((65536 ≤ mu.deadBytes ∧
          (mu.usedBytes : ℚ) * cs.maxDeadBytesRatio < (mu.deadBytes : ℚ)) ∨
        (65536 ≤ asu.dead ∧
          (asu.used : ℚ) * cs.maxDeadAddressSpaceRatio < (asu.dead : ℚ))))
    ∧ (consider_compact mu asu cs = none ↔
      ¬ ((65536 ≤ mu.deadBytes ∧
          (mu.usedBytes : ℚ) * cs.maxDeadBytesRatio < (mu.deadBytes : ℚ)) ∨
        (65536 ≤ asu.dead ∧
          (asu.used : ℚ) * cs.maxDeadAddressSpaceRatio < (asu.dead : ℚ)))) := by
  have hslack : DEAD_BYTES_SLACK = 65536 := rfl
  have hslack2 : DEAD_ADDRESS_SPACE_SLACK = 65536 := rfl
  unfold consider_compact
  rw [hslack, hslack2]
  by_cases h : (65536 ≤ mu.deadBytes ∧
      (mu.usedBytes : ℚ) * cs.maxDeadBytesRatio < (mu.deadBytes : ℚ)) ∨
    (65536 ≤ asu.dead ∧
      (asu.used : ℚ) * cs.maxDeadAddressSpaceRatio < (asu.dead : ℚ))
  · rw [if_pos h]
    simp [h]
  · rw [if_neg h]
    simp [h]

/-- Claim C9: `getPostingDictionary` on the non-payload variant
    `EnumStoreDictionary<EnumTree>` unconditionally aborts
    (`LOG_ABORT("should not be reached")`, modelled as `Except.error`) for
    every dictionary state, while on `EnumStoreDictionary<EnumPostingTree>` it
    returns the underlying tree and never aborts. -/
theorem c9_getPostingDictionary_abort (d : Dict) :
    getPostingDictionary ⟨.enumTree, d⟩ = .error "should not be reached"
    ∧ getPostingDictionary ⟨.enumPostingTree, d⟩ = .ok d
    ∧ variantHasData .enumTree = false
    ∧ variantHasData .enumPostingTree = true :=
  ⟨rfl, rfl, rfl, rfl⟩

/-! Ordered-dictionary lemmas. -/

lemma valOf_append {s : Store} {e : Entry} {i : Nat} (h : i < s.length) :
    valOf (s ++ [e]) i = valOf s i := by
  simp [valOf, List.getElem?_append_left h]

lemma valOf_append_self (s : Store) (e : Entry) : valOf (s ++ [e]) s.length = e.value := by
  simp [valOf, List.getElem?_concat_length]

lemma valuesOf_eq_annotate_map (s : Store) (d : Dict) :
    valuesOf s d = (annotate s d).map Prod.fst := by
  simp [valuesOf, annotate, List.map_map]

lemma annotate_store_append {s : Store} {d : Dict} {e : Entry} (hv : validD s d) :
    annotate (s ++ [e]) d = annotate s d := by
  unfold annotate
  apply List.map_congr_left
  intro kv hkv
  rw [valOf_append (hv kv hkv)]

lemma valuesOf_store_append {s : Store} {d : Dict} {e : Entry} (hv : validD s d) :
    valuesOf (s ++ [e]) d = valuesOf s d := by
  rw [valuesOf_eq_annotate_map, valuesOf_eq_annotate_map, annotate_store_append hv]

lemma lowerBound_store_append {s : Store} {e : Entry} {probe : Nat} :
    ∀ {d : Dict}, validD s d → lowerBound (s ++ [e]) probe d = lowerBound s probe d := by
  intro d
  induction d with
  | nil => intro _; rfl
  | cons kv rest ih =>
    intro hv
    rw [lowerBound, lowerBound, valOf_append (hv kv (by simp)),
      ih (fun x hx => hv x (by simp [hx]))]

lemma addInsert_cons (fold : Nat → Nat) (s : Store) (probe : Nat) (kv : Nat × Option Nat)
    (d : Dict) (pos : Nat) :
    EnumStoreFoldedDictionary.addInsert fold s probe (kv :: d) (pos + 1) =
      ((EnumStoreFoldedDictionary.addInsert fold s probe d pos).1,
        kv :: (EnumStoreFoldedDictionary.addInsert fold s probe d pos).2.1,
        (EnumStoreFoldedDictionary.addInsert fold s probe d pos).2.2) := by
  unfold EnumStoreFoldedDictionary.addInsert
  simp only [List.take_succ_cons, List.drop_succ_cons, List.cons_append,
    List.getElem?_cons_succ, List.set_cons_succ]
  cases h : (d.take pos ++ (s.length, (none : Option Nat)) :: d.drop pos)[pos + 1]? with
  | none => rfl
  | some kv2 =>
    dsimp only
    by_cases hc : kv2.2.isSome ∧
        ¬ fold (valOf (s ++ [⟨probe, 0⟩]) s.length) < fold (valOf (s ++ [⟨probe, 0⟩]) kv2.1)
    · rw [if_pos hc, if_pos hc]
    · rw [if_neg hc, if_neg hc]

lemma add_eq_addRec (fold : Nat → Nat) (probe : Nat) :
    ∀ {d : Dict} {s : Store}, validD s d →
      EnumStoreFoldedDictionary.add fold s probe d = addRec fold s probe d := by
  intro d
  induction d with
  | nil =>
    intro s _
    rw [EnumStoreFoldedDictionary.add, addRec]
    rw [show lowerBound s probe [] = 0 from rfl]
    simp only [List.getElem?_nil]
    rw [EnumStoreFoldedDictionary.addInsert]
    simp
  | cons kv rest ih =>
    intro s hv
    rw [EnumStoreFoldedDictionary.add, addRec, lowerBound]
    by_cases h1 : valOf s kv.1 < probe
    · rw [if_pos h1, if_pos h1]
      simp only [List.getElem?_cons_succ]
      rw [addInsert_cons]
      have hrest : EnumStoreFoldedDictionary.add fold s probe rest = addRec fold s probe rest :=
        ih (fun x hx => hv x (by simp [hx]))
      rw [EnumStoreFoldedDictionary.add] at hrest
      cases h2 : rest[lowerBound s probe rest]? with
      | none =>
        rw [h2] at hrest
        dsimp only at hrest ⊢
        rw [hrest]
      | some kv2 =>
        rw [h2] at hrest
        dsimp only at hrest ⊢
        by_cases h3 : ¬ probe < valOf s kv2.1
        · rw [if_pos h3] at hrest
          rw [if_pos h3, ← hrest]
        · rw [if_neg h3] at hrest
          rw [if_neg h3, hrest]
    · rw [if_neg h1, if_neg h1]
      simp only [List.getElem?_cons_zero]
      by_cases h2 : ¬ probe < valOf s kv.1
      · rw [if_pos h2, if_pos h2]
      · rw [if_neg h2, if_neg h2]
        rw [EnumStoreFoldedDictionary.addInsert]
        simp only [List.take_zero, List.drop_zero, List.nil_append,
          List.getElem?_cons_succ, List.getElem?_cons_zero]
        have hval : valOf (s ++ [⟨probe, 0⟩]) s.length = probe := valOf_append_self s _
        have hvalk : valOf (s ++ [⟨probe, 0⟩]) kv.1 = valOf s kv.1 :=
          valOf_append (hv kv (by simp))
        rw [hval, hvalk]
        by_cases h3 : kv.2.isSome ∧ ¬ fold probe < fold (valOf s kv.1)
        · rw [if_pos h3, if_pos h3]
          rfl
        · rw [if_neg h3, if_neg h3]

lemma remove_eq_removeRec (fold : Nat → Nat) (s : Store) (ref : Nat) :
    ∀ d : Dict, EnumStoreFoldedDictionary.remove fold s d ref = removeRec fold s ref d := by
  intro d
  induction d with
  | nil => rfl
  | cons kv rest ih =>
    rw [EnumStoreFoldedDictionary.remove, removeRec.eq_def, lowerBound]
    try dsimp only
    by_cases h1 : valOf s kv.1 < valOf s ref
    · rw [if_pos h1, if_pos h1]
      simp only [List.getElem?_cons_succ, List.eraseIdx_cons_succ, List.set_cons_succ]
      rw [← ih, EnumStoreFoldedDictionary.remove]
      cases h2 : rest[lowerBound s (valOf s ref) rest]? with
      | none => rfl
      | some kv2 =>
        try dsimp only
        by_cases h3 : kv2.1 = ref
        · rw [if_pos h3, if_pos h3]
          cases h4 : (rest.eraseIdx (lowerBound s (valOf s ref) rest))[lowerBound s
              (valOf s ref) rest]? with
          | none => rfl
          | some kv3 =>
            try dsimp only
            by_cases h5 : kv2.2.isSome ∧ kv3.2 = none ∧
                ¬ fold (valOf s ref) < fold (valOf s kv3.1)
            · rw [if_pos h5, if_pos h5]
            · rw [if_neg h5, if_neg h5]
        · rw [if_neg h3, if_neg h3]
    · rw [if_neg h1, if_neg h1]
      simp only [List.getElem?_cons_zero, List.eraseIdx_cons_zero]
      try dsimp only
      by_cases h2 : kv.1 = ref
      · rw [if_pos h2, if_pos h2]
        cases rest with
        | nil => rfl
        | cons kv2 rest2 =>
          simp only [List.getElem?_cons_zero, List.set_cons_zero]
      · rw [if_neg h2, if_neg h2]

lemma annotate_nil (s : Store) : annotate s [] = [] := rfl

lemma annotate_cons (s : Store) (kv : Nat × Option Nat) (d : Dict) :
    annotate s (kv :: d) = (valOf s kv.1, kv.2) :: annotate s d := rfl

lemma valuesOf_cons (s : Store) (kv : Nat × Option Nat) (d : Dict) :
    valuesOf s (kv :: d) = valOf s kv.1 :: valuesOf s d := rfl

lemma keysOf_cons (kv : Nat × Option Nat) (d : Dict) :
    keysOf (kv :: d) = kv.1 :: keysOf d := rfl

lemma mem_values_of_mem_keys {s : Store} {d : Dict} {k : Nat} (h : k ∈ keysOf d) :
    valOf s k ∈ valuesOf s d := by
  simp only [keysOf, List.mem_map] at h
  obtain ⟨kv, hkv, hk⟩ := h
  simp only [valuesOf, List.mem_map]
  exact ⟨kv, hkv, by rw [hk]⟩

lemma validD_cons {s : Store} {kv : Nat × Option Nat} {d : Dict}
    (hv : validD s (kv :: d)) : validD s d :=
  fun x hx => hv x (by simp [hx])

lemma dictSorted_cons {s : Store} {kv : Nat × Option Nat} {d : Dict}
    (hs : dictSorted s (kv :: d)) :
    (∀ v ∈ valuesOf s d, valOf s kv.1 < v) ∧ dictSorted s d := by
  rw [dictSorted, valuesOf_cons, List.pairwise_cons] at hs
  exact hs

lemma annotate_addRec (fold : Nat → Nat) (probe : Nat) :
    ∀ {d : Dict} {s : Store}, validD s d → probe ∉ valuesOf s d →
      annotate (s ++ [⟨probe, 0⟩]) (addRec fold s probe d).2.1 =
        insertFolded fold probe (annotate s d) := by
  intro d
  induction d with
  | nil =>
    intro s _ _
    rw [addRec, annotate_nil, insertFolded, annotate_cons, annotate_nil, valOf_append_self]
  | cons kv rest ih =>
    intro s hv habs
    have hvk : kv.1 < s.length := hv kv (by simp)
    have hne : valOf s kv.1 ≠ probe := by
      intro h
      exact habs (by rw [valuesOf_cons, ← h]; simp)
    rw [addRec, annotate_cons, insertFolded.eq_def]
    dsimp only
    by_cases h1 : valOf s kv.1 < probe
    · rw [if_pos h1, if_pos h1]
      dsimp only
      rw [annotate_cons, valOf_append hvk,
        ih (validD_cons hv) (fun h => habs (by rw [valuesOf_cons]; simp [h]))]
    · rw [if_neg h1, if_neg h1]
      have hlt : probe < valOf s kv.1 := by omega
      rw [if_neg (by exact fun hc => hc hlt)]
      by_cases h3 : kv.2.isSome ∧ ¬ fold probe < fold (valOf s kv.1)
      · rw [if_pos h3, if_pos h3]
        dsimp only
        rw [annotate_cons, annotate_cons, valOf_append_self, valOf_append hvk,
          annotate_store_append (validD_cons hv)]
      · rw [if_neg h3, if_neg h3]
        dsimp only
        rw [annotate_cons, annotate_cons, valOf_append_self, valOf_append hvk,
          annotate_store_append (validD_cons hv)]

lemma annotate_removeRec (fold : Nat → Nat) (ref : Nat) :
    ∀ {d : Dict} {s : Store}, dictSorted s d → ref ∈ keysOf d →
      annotate s (removeRec fold s ref d) = removeFolded fold (valOf s ref) (annotate s d) := by
  intro d
  induction d with
  | nil =>
    intro s _ href
    simp [keysOf] at href
  | cons kv rest ih =>
    intro s hs href
    obtain ⟨hhead, htail⟩ := dictSorted_cons hs
    rw [removeRec.eq_def, annotate_cons, removeFolded.eq_def]
    dsimp only
    by_cases h1 : valOf s kv.1 < valOf s ref
    · rw [if_pos h1, if_pos h1]
      have hkne : kv.1 ≠ ref := fun h => by rw [h] at h1; omega
      have href2 : ref ∈ keysOf rest := by
        rw [keysOf_cons, List.mem_cons] at href
        rcases href with h | h
        · exact absurd h.symm hkne
        · exact h
      rw [annotate_cons, ih htail href2]
    · rw [if_neg h1, if_neg h1]
      by_cases h2 : kv.1 = ref
      · rw [if_pos h2, if_pos (by rw [h2])]
        cases rest with
        | nil => rfl
        | cons kv2 rest2 =>
          dsimp only
          rw [annotate_cons]
          dsimp only
          by_cases h3 : kv.2.isSome ∧ kv2.2 = none ∧
              ¬ fold (valOf s ref) < fold (valOf s kv2.1)
          · rw [if_pos h3, if_pos h3]
            exact annotate_cons s (kv2.1, kv.2) rest2
          · rw [if_neg h3, if_neg h3]
            exact annotate_cons s kv2 rest2
      · have href2 : ref ∈ keysOf rest := by
          rw [keysOf_cons, List.mem_cons] at href
          rcases href with h | h
          · exact absurd h.symm h2
          · exact h
        have hvlt : valOf s kv.1 < valOf s ref :=
          hhead _ (mem_values_of_mem_keys href2)
        exact absurd hvlt h1

lemma insertFolded_map_fst (fold : Nat → Nat) (probe : Nat) :
    ∀ l : List (Nat × Option Nat),
      (insertFolded fold probe l).map Prod.fst = insertVal probe (l.map Prod.fst) := by
  intro l
  induction l with
  | nil => rfl
  | cons vp rest ih =>
    rw [insertFolded.eq_def, List.map_cons, insertVal]
    dsimp only
    by_cases h1 : vp.1 < probe
    · rw [if_pos h1, if_pos h1, List.map_cons, ih]
    · rw [if_neg h1, if_neg h1]
      by_cases h2 : vp.2.isSome ∧ ¬ fold probe < fold vp.1
      · rw [if_pos h2]
        simp
      · rw [if_neg h2]
        simp

lemma insertVal_mem (probe : Nat) :
    ∀ (l : List Nat) (x : Nat), x ∈ insertVal probe l ↔ x = probe ∨ x ∈ l := by
  intro l
  induction l with
  | nil => intro x; simp [insertVal]
  | cons v rest ih =>
    intro x
    rw [insertVal]
    by_cases h1 : v < probe
    · rw [if_pos h1]
      simp only [List.mem_cons, ih]
      tauto
    · rw [if_neg h1]
      simp only [List.mem_cons]

lemma insertVal_pairwise {probe : Nat} :
    ∀ {l : List Nat}, probe ∉ l → l.Pairwise (· < ·) →
      (insertVal probe l).Pairwise (· < ·) := by
  intro l
  induction l with
  | nil => intro _ _; simp [insertVal]
  | cons v rest ih =>
    intro habs hp
    rw [List.pairwise_cons] at hp
    rw [insertVal]
    by_cases h1 : v < probe
    · rw [if_pos h1, List.pairwise_cons]
      constructor
      · intro x hx
        rcases (insertVal_mem probe rest x).mp hx with h | h
        · omega
        · exact hp.1 x h
      · exact ih (fun h => habs (by simp [h])) hp.2
    · rw [if_neg h1, List.pairwise_cons, List.pairwise_cons]
      have hne : probe ≠ v := fun h => habs (by simp [h])
      refine ⟨?_, hp⟩
      intro x hx
      rcases List.mem_cons.mp hx with h | h
      · omega
      · have := hp.1 x h
        omega

lemma insertFolded_filterMap_snd (fold : Nat → Nat) (probe : Nat) :
    ∀ l : List (Nat × Option Nat),
      (insertFolded fold probe l).filterMap Prod.snd = l.filterMap Prod.snd := by
  intro l
  induction l with
  | nil => rfl
  | cons vp rest ih =>
    rw [insertFolded.eq_def]
    dsimp only
    by_cases h1 : vp.1 < probe
    · rw [if_pos h1]
      simp only [List.filterMap_cons]
      cases vp.2 with
      | none => exact ih
      | some p => rw [ih]
    · rw [if_neg h1]
      by_cases h2 : vp.2.isSome ∧ ¬ fold probe < fold vp.1
      · rw [if_pos h2]
        simp only [List.filterMap_cons]
      · rw [if_neg h2]
        simp only [List.filterMap_cons]

lemma removeFolded_map_fst (fold : Nat → Nat) (v : Nat) :
    ∀ l : List (Nat × Option Nat), (l.map Prod.fst).Pairwise (· < ·) →
      (removeFolded fold v l).map Prod.fst = (l.map Prod.fst).erase v := by
  intro l
  induction l with
  | nil => intro _; rfl
  | cons vp rest ih =>
    intro hp
    rw [List.map_cons, List.pairwise_cons] at hp
    rw [removeFolded.eq_def]
    dsimp only
    by_cases h1 : vp.1 < v
    · rw [if_pos h1, List.map_cons, ih hp.2, List.map_cons,
        List.erase_cons_tail (by simpa using Nat.ne_of_lt h1)]
    · rw [if_neg h1]
      by_cases h2 : vp.1 = v
      · rw [if_pos h2, List.map_cons, h2, List.erase_cons_head]
        cases rest with
        | nil => rfl
        | cons vp2 rest2 =>
          dsimp only
          by_cases h3 : vp.2.isSome ∧ vp2.2 = none ∧ ¬ fold v < fold vp2.1
          · rw [if_pos h3]
            rfl
          · rw [if_neg h3]
      · have hnm : v ∉ rest.map Prod.fst := by
          intro hmem
          have := hp.1 v hmem
          omega
        rw [if_neg h2, List.map_cons, List.erase_cons_tail (by simpa using h2),
          List.erase_of_not_mem hnm]

lemma addRec_found (fold : Nat → Nat) (probe : Nat) :
    ∀ {d : Dict} {s : Store}, dictSorted s d → probe ∈ valuesOf s d →
      (addRec fold s probe d).1 = s ∧ (addRec fold s probe d).2.1 = d ∧
      (addRec fold s probe d).2.2.inserted = false ∧
      (addRec fold s probe d).2.2.ref ≠ none ∧
      ((addRec fold s probe d).2.2.ref.getD 0) ∈ keysOf d ∧
      valOf s ((addRec fold s probe d).2.2.ref.getD 0) = probe := by
  intro d
  induction d with
  | nil =>
    intro s _ hpres
    simp [valuesOf] at hpres
  | cons kv rest ih =>
    intro s hs hpres
    obtain ⟨hhead, htail⟩ := dictSorted_cons hs
    rw [addRec]
    by_cases h1 : valOf s kv.1 < probe
    · rw [if_pos h1]
      have hmem : probe ∈ valuesOf s rest := by
        rw [valuesOf_cons, List.mem_cons] at hpres
        rcases hpres with h | h
        · omega
        · exact h
      have hr := ih htail hmem
      dsimp only
      refine ⟨hr.1, by rw [hr.2.1], hr.2.2.1, hr.2.2.2.1, ?_, hr.2.2.2.2.2⟩
      rw [keysOf_cons]
      exact List.mem_cons_of_mem _ hr.2.2.2.2.1
    · rw [if_neg h1]
      by_cases h2 : ¬ probe < valOf s kv.1
      · rw [if_pos h2]
        refine ⟨rfl, rfl, rfl, by simp, ?_, ?_⟩
        · rw [keysOf_cons]
          simp
        · have hkv : valOf s kv.1 = probe := by omega
          simpa using hkv
      · exfalso
        rw [valuesOf_cons, List.mem_cons] at hpres
        rcases hpres with h | h
        · omega
        · have := hhead probe h
          omega

lemma addRec_inserted (fold : Nat → Nat) (probe : Nat) :
    ∀ {d : Dict} {s : Store}, probe ∉ valuesOf s d →
      (addRec fold s probe d).1 = s ++ [⟨probe, 0⟩] ∧
      (addRec fold s probe d).2.2 = ⟨some s.length, true⟩ := by
  intro d
  induction d with
  | nil =>
    intro s _
    exact ⟨rfl, rfl⟩
  | cons kv rest ih =>
    intro s habs
    have hne : valOf s kv.1 ≠ probe := fun h => habs (by rw [valuesOf_cons, ← h]; simp)
    rw [addRec]
    by_cases h1 : valOf s kv.1 < probe
    · rw [if_pos h1]
      exact ih (fun h => habs (by rw [valuesOf_cons]; simp [h]))
    · rw [if_neg h1]
      rw [if_neg (fun hc => hc (by omega))]
      by_cases h3 : kv.2.isSome ∧ ¬ fold probe < fold (valOf s kv.1)
      · rw [if_pos h3]
        exact ⟨rfl, rfl⟩
      · rw [if_neg h3]
        exact ⟨rfl, rfl⟩

lemma addRec_keys_perm (fold : Nat → Nat) (probe : Nat) :
    ∀ {d : Dict} {s : Store}, probe ∉ valuesOf s d →
      (keysOf (addRec fold s probe d).2.1).Perm (s.length :: keysOf d) := by
  intro d
  induction d with
  | nil =>
    intro s _
    rw [addRec]
    simp [keysOf]
  | cons kv rest ih =>
    intro s habs
    have hne : valOf s kv.1 ≠ probe := fun h => habs (by rw [valuesOf_cons, ← h]; simp)
    rw [addRec]
    by_cases h1 : valOf s kv.1 < probe
    · rw [if_pos h1]
      dsimp only
      rw [keysOf_cons, keysOf_cons]
      exact ((ih (fun h => habs (by rw [valuesOf_cons]; simp [h]))).cons kv.1).trans
        (List.Perm.swap s.length kv.1 (keysOf rest))
    · rw [if_neg h1]
      rw [if_neg (fun hc => hc (by omega))]
      by_cases h3 : kv.2.isSome ∧ ¬ fold probe < fold (valOf s kv.1)
      · rw [if_pos h3]
        simp [keysOf]
      · rw [if_neg h3]
        simp [keysOf]

lemma removeRec_keys (fold : Nat → Nat) (ref : Nat) :
    ∀ {d : Dict} {s : Store}, dictSorted s d → ref ∈ keysOf d →
      keysOf (removeRec fold s ref d) = (keysOf d).erase ref := by
  intro d
  induction d with
  | nil =>
    intro s _ href
    simp [keysOf] at href
  | cons kv rest ih =>
    intro s hs href
    obtain ⟨hhead, htail⟩ := dictSorted_cons hs
    rw [removeRec.eq_def]
    dsimp only
    by_cases h1 : valOf s kv.1 < valOf s ref
    · have hkne : kv.1 ≠ ref := fun h => by rw [h] at h1; omega
      have href2 : ref ∈ keysOf rest := by
        rw [keysOf_cons, List.mem_cons] at href
        rcases href with h | h
        · exact absurd h.symm hkne
        · exact h
      rw [if_pos h1, keysOf_cons, keysOf_cons, ih htail href2,
        List.erase_cons_tail (by simpa using hkne)]
    · rw [if_neg h1]
      by_cases h2 : kv.1 = ref
      · rw [if_pos h2, keysOf_cons, h2, List.erase_cons_head]
        cases rest with
        | nil => rfl
        | cons kv2 rest2 =>
          dsimp only
          by_cases h3 : kv.2.isSome ∧ kv2.2 = none ∧
              ¬ fold (valOf s ref) < fold (valOf s kv2.1)
          · rw [if_pos h3]
            rfl
          · rw [if_neg h3]
      · have href2 : ref ∈ keysOf rest := by
          rw [keysOf_cons, List.mem_cons] at href
          rcases href with h | h
          · exact absurd h.symm h2
          · exact h
        have hvlt : valOf s kv.1 < valOf s ref :=
          hhead _ (mem_values_of_mem_keys href2)
        exact absurd hvlt h1

lemma removeRec_values (fold : Nat → Nat) {s : Store} {d : Dict} {ref : Nat}
    (hs : dictSorted s d) (href : ref ∈ keysOf d) :
    valuesOf s (removeRec fold s ref d) = (valuesOf s d).erase (valOf s ref) := by
  rw [valuesOf_eq_annotate_map, annotate_removeRec fold ref hs href,
    removeFolded_map_fst fold (valOf s ref) (annotate s d)
      (by rw [← valuesOf_eq_annotate_map]; exact hs),
    ← valuesOf_eq_annotate_map]

lemma removeRec_sorted (fold : Nat → Nat) {s : Store} {d : Dict} {ref : Nat}
    (hs : dictSorted s d) (href : ref ∈ keysOf d) :
    dictSorted s (removeRec fold s ref d) := by
  rw [dictSorted, removeRec_values fold hs href]
  exact List.Pairwise.sublist (List.erase_sublist _ _) hs

lemma validD_iff_keys (s : Store) (d : Dict) :
    validD s d ↔ ∀ k ∈ keysOf d, k < s.length := by
  constructor
  · intro hv k hk
    simp only [keysOf, List.mem_map] at hk
    obtain ⟨kv, hkv, hk⟩ := hk
    rw [← hk]
    exact hv kv hkv
  · intro h kv hkv
    exact h kv.1 (by simp only [keysOf, List.mem_map]; exact ⟨kv, hkv, rfl⟩)

lemma removeRec_validD (fold : Nat → Nat) {s : Store} {d : Dict} {ref : Nat}
    (hs : dictSorted s d) (hv : validD s d) (href : ref ∈ keysOf d) :
    validD s (removeRec fold s ref d) := by
  rw [validD_iff_keys]
  intro k hk
  rw [removeRec_keys fold ref hs href] at hk
  exact (validD_iff_keys s d).mp hv k (List.mem_of_mem_erase hk)

lemma lowerBound_probe_le (s : Store) (probe : Nat) :
    ∀ (d : Dict) (kv : Nat × Option Nat), d[lowerBound s probe d]? = some kv →
      probe ≤ valOf s kv.1 := by
  intro d
  induction d with
  | nil =>
    intro kv h
    simp at h
  | cons kv0 rest ih =>
    intro kv h
    rw [lowerBound] at h
    by_cases h1 : valOf s kv0.1 < probe
    · rw [if_pos h1, List.getElem?_cons_succ] at h
      exact ih kv h
    · rw [if_neg h1] at h
      simp only [List.getElem?_cons_zero, Option.some.injEq] at h
      subst h
      omega

lemma findFrozenIndex_none_of_absent {s : Store} {probe : Nat} {d : Dict}
    (habs : probe ∉ valuesOf s d) : findFrozenIndex s probe d = none := by
  rw [findFrozenIndex]
  cases h : (frozenView d)[lowerBound s probe (frozenView d)]? with
  | none => rfl
  | some kv =>
    have hle := lowerBound_probe_le s probe (frozenView d) kv h
    have hmem : kv ∈ d := List.getElem?_mem h
    have hne : valOf s kv.1 ≠ probe := by
      intro hh
      exact habs (by rw [← hh]; exact List.mem_map.mpr ⟨kv, hmem, rfl⟩)
    dsimp only
    rw [if_neg (fun hc => hc (by omega))]

lemma findFrozenIndex_store_append {s : Store} {e : Entry} {probe : Nat} {d : Dict}
    (hv : validD s d) :
    findFrozenIndex (s ++ [e]) probe d = findFrozenIndex s probe d := by
  rw [findFrozenIndex, findFrozenIndex]
  have hlb : lowerBound (s ++ [e]) probe (frozenView d) =
      lowerBound s probe (frozenView d) := lowerBound_store_append hv
  rw [hlb]
  cases h : (frozenView d)[lowerBound s probe (frozenView d)]? with
  | none => rfl
  | some kv =>
    dsimp only
    rw [valOf_append (hv kv (List.getElem?_mem h))]

/-- Claim C1: the folded dictionary `add` keeps at most one entry per distinct
    value (the tree stays strictly value-sorted): a second `add` of a present
    value returns the existing entry's `Index` with `inserted=false` and
    changes neither store nor tree, while an `add` of an absent value runs the
    allocation callback exactly once (exactly one entry is appended to the
    store), inserts the returned `Index` into the tree, and returns it with
    `inserted=true`. -/
theorem c1_add_dedup_unique (fold : Nat → Nat) (s : Store) (probe : Nat) (d : Dict)
    (hs : dictSorted s d) (hv : validD s d) :
    dictSorted (EnumStoreFoldedDictionary.add fold s probe d).1
      (EnumStoreFoldedDictionary.add fold s probe d).2.1 ∧
    (if probe ∈ valuesOf s d then
      (EnumStoreFoldedDictionary.add fold s probe d).1 = s ∧
      (EnumStoreFoldedDictionary.add fold s probe d).2.1 = d ∧
      (EnumStoreFoldedDictionary.add fold s probe d).2.2.inserted = false ∧
      (EnumStoreFoldedDictionary.add fold s probe d).2.2.ref ≠ none ∧
      ((EnumStoreFoldedDictionary.add fold s probe d).2.2.ref.getD 0) ∈ keysOf d ∧
      valOf s ((EnumStoreFoldedDictionary.add fold s probe d).2.2.ref.getD 0) = probe
    else
      (EnumStoreFoldedDictionary.add fold s probe d).1 = s ++ [⟨probe, 0⟩] ∧
      (EnumStoreFoldedDictionary.add fold s probe d).2.2 = ⟨some s.length, true⟩ ∧
      (keysOf (EnumStoreFoldedDictionary.add fold s probe d).2.1).Perm
        (s.length :: keysOf d) ∧
      valuesOf (EnumStoreFoldedDictionary.add fold s probe d).1
        (EnumStoreFoldedDictionary.add fold s probe d).2.1 =
          insertVal probe (valuesOf s d)) := by
  have heq : EnumStoreFoldedDictionary.add fold s probe d = addRec fold s probe d :=
    add_eq_addRec fold probe hv
  rw [heq]
  by_cases hpres : probe ∈ valuesOf s d
  · rw [if_pos hpres]
    have hf := addRec_found fold probe hs hpres
    refine ⟨?_, hf⟩
    rw [hf.1, hf.2.1]
    exact hs
  · rw [if_neg hpres]
    have hins := addRec_inserted fold probe hpres
    have hvals : valuesOf (addRec fold s probe d).1 (addRec fold s probe d).2.1 =
        insertVal probe (valuesOf s d) := by
      rw [hins.1, valuesOf_eq_annotate_map, annotate_addRec fold probe hv hpres,
        insertFolded_map_fst, ← valuesOf_eq_annotate_map]
    refine ⟨?_, hins.1, hins.2, addRec_keys_perm fold probe hpres, hvals⟩
    rw [dictSorted, hvals]
    exact insertVal_pairwise hpres hs

theorem c1_add_dedup_unique_witness :
    dictSorted [(⟨5, 0⟩ : Entry)] [(0, none)] ∧ validD [(⟨5, 0⟩ : Entry)] [(0, none)] ∧
    (dictSorted (EnumStoreFoldedDictionary.add (fun n => n) [⟨5, 0⟩] 7 [(0, none)]).1
      (EnumStoreFoldedDictionary.add (fun n => n) [⟨5, 0⟩] 7 [(0, none)]).2.1 ∧
    (if 7 ∈ valuesOf [⟨5, 0⟩] [(0, none)] then
      (EnumStoreFoldedDictionary.add (fun n => n) [⟨5, 0⟩] 7 [(0, none)]).1 = [⟨5, 0⟩] ∧
      (EnumStoreFoldedDictionary.add (fun n => n) [⟨5, 0⟩] 7 [(0, none)]).2.1 = [(0, none)] ∧
      (EnumStoreFoldedDictionary.add (fun n => n) [⟨5, 0⟩] 7 [(0, none)]).2.2.inserted
        = false ∧
      (EnumStoreFoldedDictionary.add (fun n => n) [⟨5, 0⟩] 7 [(0, none)]).2.2.ref ≠ none ∧
      ((EnumStoreFoldedDictionary.add (fun n => n) [⟨5, 0⟩] 7
        [(0, none)]).2.2.ref.getD 0) ∈ keysOf [(0, none)] ∧
      valOf [⟨5, 0⟩] ((EnumStoreFoldedDictionary.add (fun n => n) [⟨5, 0⟩] 7
        [(0, none)]).2.2.ref.getD 0) = 7
    else
      (EnumStoreFoldedDictionary.add (fun n => n) [⟨5, 0⟩] 7 [(0, none)]).1 =
        [⟨5, 0⟩] ++ [⟨7, 0⟩] ∧
      (EnumStoreFoldedDictionary.add (fun n => n) [⟨5, 0⟩] 7 [(0, none)]).2.2 =
        ⟨some (List.length [(⟨5, 0⟩ : Entry)]), true⟩ ∧
      (keysOf (EnumStoreFoldedDictionary.add (fun n => n) [⟨5, 0⟩] 7
        [(0, none)]).2.1).Perm (List.length [(⟨5, 0⟩ : Entry)] :: keysOf [(0, none)]) ∧
      valuesOf (EnumStoreFoldedDictionary.add (fun n => n) [⟨5, 0⟩] 7 [(0, none)]).1
        (EnumStoreFoldedDictionary.add (fun n => n) [⟨5, 0⟩] 7 [(0, none)]).2.1 =
          insertVal 7 (valuesOf [⟨5, 0⟩] [(0, none)]))) :=
  ⟨by decide, by decide,
    c1_add_dedup_unique (fun n => n) [⟨5, 0⟩] 7 [(0, none)] (by decide) (by decide)⟩

/-- Claim C5: a frozen view taken before a mutation reflects exactly the state
    at snapshot time: after an `add`, traversing the snapshot (through the
    post-mutation store) still yields the old values, an exact lookup of the
    newly inserted value through the snapshot still misses, and a fresh
    traversal of the live tree shows the inserted value in order; after a
    `remove` of a present key, the snapshot traversal is likewise unchanged
    while a fresh traversal lacks exactly the removed value. -/
theorem c5_frozen_view_isolation (fold : Nat → Nat) (s : Store) (probe ref : Nat)
    (d : Dict) (hs : dictSorted s d) (hv : validD s d)
    (habs : probe ∉ valuesOf s d) (href : ref ∈ keysOf d) :
    valuesOf (EnumStoreFoldedDictionary.add fold s probe d).1 (frozenView d) =
      valuesOf s d ∧
    findFrozenIndex (EnumStoreFoldedDictionary.add fold s probe d).1 probe
      (frozenView d) = none ∧
    valuesOf (EnumStoreFoldedDictionary.add fold s probe d).1
      (EnumStoreFoldedDictionary.add fold s probe d).2.1 =
        insertVal probe (valuesOf s d) ∧
    valuesOf s (frozenView d) = valuesOf s d ∧
    valuesOf s (EnumStoreFoldedDictionary.remove fold s d ref) =
      (valuesOf s d).erase (valOf s ref) := by
  have heq : EnumStoreFoldedDictionary.add fold s probe d = addRec fold s probe d :=
    add_eq_addRec fold probe hv
  have hins := addRec_inserted fold probe (d := d) (s := s) habs
  refine ⟨?_, ?_, ?_, rfl, ?_⟩
  · rw [heq, hins.1, frozenView]
    exact valuesOf_store_append hv
  · rw [heq, hins.1, frozenView]
    rw [findFrozenIndex_store_append hv]
    exact findFrozenIndex_none_of_absent habs
  · rw [heq, valuesOf_eq_annotate_map, hins.1, annotate_addRec fold probe hv habs,
      insertFolded_map_fst, ← valuesOf_eq_annotate_map]
  · rw [remove_eq_removeRec]
    exact removeRec_values fold hs href

theorem c5_frozen_view_isolation_witness :
    dictSorted [(⟨2, 1⟩ : Entry), ⟨6, 1⟩] [(0, none), (1, none)] ∧
    validD [(⟨2, 1⟩ : Entry), ⟨6, 1⟩] [(0, none), (1, none)] ∧
    (4 ∉ valuesOf [(⟨2, 1⟩ : Entry), ⟨6, 1⟩] [(0, none), (1, none)]) ∧
    0 ∈ keysOf [((0 : Nat), (none : Option Nat)), (1, none)] ∧
    (valuesOf (EnumStoreFoldedDictionary.add (fun n => n) [⟨2, 1⟩, ⟨6, 1⟩] 4
        [(0, none), (1, none)]).1 (frozenView [(0, none), (1, none)]) =
      valuesOf [⟨2, 1⟩, ⟨6, 1⟩] [(0, none), (1, none)] ∧
    findFrozenIndex (EnumStoreFoldedDictionary.add (fun n => n) [⟨2, 1⟩, ⟨6, 1⟩] 4
      [(0, none), (1, none)]).1 4 (frozenView [(0, none), (1, none)]) = none ∧
    valuesOf (EnumStoreFoldedDictionary.add (fun n => n) [⟨2, 1⟩, ⟨6, 1⟩] 4
        [(0, none), (1, none)]).1
      (EnumStoreFoldedDictionary.add (fun n => n) [⟨2, 1⟩, ⟨6, 1⟩] 4
        [(0, none), (1, none)]).2.1 =
        insertVal 4 (valuesOf [⟨2, 1⟩, ⟨6, 1⟩] [(0, none), (1, none)]) ∧
    valuesOf [⟨2, 1⟩, ⟨6, 1⟩] (frozenView [(0, none), (1, none)]) =
      valuesOf [⟨2, 1⟩, ⟨6, 1⟩] [(0, none), (1, none)] ∧
    valuesOf [⟨2, 1⟩, ⟨6, 1⟩]
        (EnumStoreFoldedDictionary.remove (fun n => n) [⟨2, 1⟩, ⟨6, 1⟩]
          [(0, none), (1, none)] 0) =
      (valuesOf [⟨2, 1⟩, ⟨6, 1⟩] [(0, none), (1, none)]).erase
        (valOf [⟨2, 1⟩, ⟨6, 1⟩] 0)) :=
  ⟨by decide, by decide, by decide, by decide,
    c5_frozen_view_isolation (fun n => n) [⟨2, 1⟩, ⟨6, 1⟩] 4 0 [(0, none), (1, none)]
      (by decide) (by decide) (by decide) (by decide)⟩

lemma setInsert_mem (x : Nat) :
    ∀ (l : List Nat) (y : Nat), y ∈ setInsert x l ↔ y = x ∨ y ∈ l := by
  intro l
  induction l with
  | nil =>
    intro y
    simp [setInsert]
  | cons z rest ih =>
    intro y
    rw [setInsert]
    by_cases h1 : x < z
    · rw [if_pos h1]
      simp only [List.mem_cons]
    · rw [if_neg h1]
      by_cases h2 : x = z
      · rw [if_pos h2]
        subst h2
        simp only [List.mem_cons]
        tauto
      · rw [if_neg h2]
        simp only [List.mem_cons, ih]
        tauto

lemma setInsert_sorted (x : Nat) :
    ∀ {l : List Nat}, l.Pairwise (· < ·) → (setInsert x l).Pairwise (· < ·) := by
  intro l
  induction l with
  | nil =>
    intro _
    simp [setInsert]
  | cons z rest ih =>
    intro hp
    rw [List.pairwise_cons] at hp
    rw [setInsert]
    by_cases h1 : x < z
    · rw [if_pos h1, List.pairwise_cons, List.pairwise_cons]
      refine ⟨?_, hp⟩
      intro y hy
      rcases List.mem_cons.mp hy with h | h
      · omega
      · have := hp.1 y h
        omega
    · rw [if_neg h1]
      by_cases h2 : x = z
      · rw [if_pos h2, List.pairwise_cons]
        exact hp
      · rw [if_neg h2, List.pairwise_cons]
        constructor
        · intro y hy
          rcases (setInsert_mem x rest y).mp hy with h | h
          · omega
          · exact hp.1 y h
        · exact ih hp.2

lemma scan_spec (s : Store) :
    ∀ (ks : List Nat) (u h : List Nat),
      ks.foldl (fun a k => freeUnusedEnum s k a) (u, h) =
        (ks.foldl (fun uu k => if refCountOf s k = 0 then setInsert k uu else uu) u,
          h ++ ks.filter (fun k => decide (refCountOf s k = 0))) := by
  intro ks
  induction ks with
  | nil =>
    intro u h
    simp
  | cons k rest ih =>
    intro u h
    rw [List.foldl_cons, List.foldl_cons, freeUnusedEnum, List.filter_cons]
    by_cases hk : refCountOf s k = 0
    · rw [if_pos hk, if_pos hk, if_pos (by simpa using hk), ih]
      simp
    · rw [if_neg hk, if_neg hk, if_neg (by simpa using hk), ih]

lemma scanSet_mem (s : Store) :
    ∀ (ks : List Nat) (u : List Nat) (y : Nat),
      y ∈ ks.foldl (fun uu k => if refCountOf s k = 0 then setInsert k uu else uu) u ↔
        y ∈ u ∨ (y ∈ ks ∧ refCountOf s y = 0) := by
  intro ks
  induction ks with
  | nil =>
    intro u y
    simp
  | cons k rest ih =>
    intro u y
    rw [List.foldl_cons, ih]
    by_cases hk : refCountOf s k = 0
    · rw [if_pos hk, setInsert_mem]
      constructor
      · rintro ((h | h) | h)
        · subst h
          exact Or.inr ⟨by simp, hk⟩
        · exact Or.inl h
        · exact Or.inr ⟨by simp [h.1], h.2⟩
      · rintro (h | ⟨hmem, hrc⟩)
        · exact Or.inl (Or.inr h)
        · rcases List.mem_cons.mp hmem with h | h
          · exact Or.inl (Or.inl h)
          · exact Or.inr ⟨h, hrc⟩
    · rw [if_neg hk]
      constructor
      · rintro (h | h)
        · exact Or.inl h
        · exact Or.inr ⟨by simp [h.1], h.2⟩
      · rintro (h | ⟨hmem, hrc⟩)
        · exact Or.inl h
        · rcases List.mem_cons.mp hmem with h | h
          · subst h
            exact absurd hrc hk
          · exact Or.inr ⟨h, hrc⟩

lemma scanSet_sorted (s : Store) :
    ∀ (ks : List Nat) {u : List Nat}, u.Pairwise (· < ·) →
      (ks.foldl (fun uu k => if refCountOf s k = 0 then setInsert k uu else uu)
        u).Pairwise (· < ·) := by
  intro ks
  induction ks with
  | nil =>
    intro u hu
    exact hu
  | cons k rest ih =>
    intro u hu
    rw [List.foldl_cons]
    by_cases hk : refCountOf s k = 0
    · rw [if_pos hk]
      exact ih (setInsert_sorted k hu)
    · rw [if_neg hk]
      exact ih hu

lemma keysOf_nodup {s : Store} {d : Dict} (hs : dictSorted s d) : (keysOf d).Nodup := by
  rw [dictSorted, valuesOf, List.pairwise_map] at hs
  rw [keysOf, List.Nodup, List.pairwise_map]
  exact hs.imp (fun h heq => by rw [heq] at h; omega)

lemma removeAll_keys (fold : Nat → Nat) (s : Store) :
    ∀ (todo : List Nat) (d : Dict), dictSorted s d → validD s d → todo.Nodup →
      (∀ u ∈ todo, u ∈ keysOf d) →
      keysOf (todo.foldl (EnumStoreFoldedDictionary.remove fold s) d) =
        (keysOf d).filter (fun k => decide (k ∉ todo)) := by
  intro todo
  induction todo with
  | nil =>
    intro d _ _ _ _
    rw [List.foldl_nil]
    have : ∀ k ∈ keysOf d, (fun k => decide (k ∉ ([] : List Nat))) k = true := by
      intro k _
      simp
    rw [List.filter_eq_self.mpr this]
  | cons u rest ih =>
    intro d hs hv hnd hsub
    rw [List.foldl_cons, remove_eq_removeRec]
    have hu : u ∈ keysOf d := hsub u (by simp)
    rw [List.nodup_cons] at hnd
    have hkeys : keysOf (removeRec fold s u d) = (keysOf d).erase u :=
      removeRec_keys fold u hs hu
    have hsub2 : ∀ x ∈ rest, x ∈ keysOf (removeRec fold s u d) := by
      intro x hx
      rw [hkeys]
      have hxne : x ≠ u := fun h => hnd.1 (h ▸ hx)
      exact (List.mem_erase_of_ne hxne).mpr (hsub x (by simp [hx]))
    rw [ih (removeRec fold s u d) (removeRec_sorted fold hs hu)
      (removeRec_validD fold hs hv hu) hnd.2 hsub2]
    rw [hkeys, (keysOf_nodup hs).erase_eq_filter u, List.filter_filter]
    apply List.filter_congr
    intro k _
    by_cases hku : k = u
    · subst hku
      simp
    · by_cases hkr : k ∈ rest
      · simp [hku, hkr]
      · simp [hku, hkr]

lemma removeScanned_keys (fold : Nat → Nat) (s : Store) (d : Dict) (src : List Nat)
    (hs : dictSorted s d) (hv : validD s d)
    (hsubSrc : ∀ k ∈ src, k ∈ keysOf d) :
    keysOf (removeUnusedEnums fold s d
        (src.foldl (fun uu k => if refCountOf s k = 0 then setInsert k uu else uu) [])) =
      (keysOf d).filter (fun k => decide (¬ (k ∈ src ∧ refCountOf s k = 0))) := by
  have hsetmem : ∀ y,
      y ∈ src.foldl (fun uu k => if refCountOf s k = 0 then setInsert k uu else uu) [] ↔
        y ∈ src ∧ refCountOf s y = 0 := by
    intro y
    rw [scanSet_mem]
    simp
  have hsorted : (src.foldl
      (fun uu k => if refCountOf s k = 0 then setInsert k uu else uu) []).Pairwise
        (· < ·) := scanSet_sorted s src (by simp)
  have hnodup : (src.foldl
      (fun uu k => if refCountOf s k = 0 then setInsert k uu else uu) []).Nodup :=
    hsorted.imp (fun h => Nat.ne_of_lt h)
  have hsub : ∀ u ∈ src.foldl
      (fun uu k => if refCountOf s k = 0 then setInsert k uu else uu) [],
      u ∈ keysOf d := fun u hu => hsubSrc u ((hsetmem u).mp hu).1
  rw [show removeUnusedEnums fold s d
      (src.foldl (fun uu k => if refCountOf s k = 0 then setInsert k uu else uu) []) =
      (src.foldl (fun uu k => if refCountOf s k = 0 then setInsert k uu else uu)
        []).foldl (EnumStoreFoldedDictionary.remove fold s) d from rfl]
  rw [removeAll_keys fold s _ d hs hv hnodup hsub]
  apply List.filter_congr
  intro k hk
  by_cases hmem : k ∈ src.foldl
      (fun uu k => if refCountOf s k = 0 then setInsert k uu else uu) []
  · have hc := (hsetmem k).mp hmem
    simp [hmem, hc.1, hc.2]
  · have hn : ¬ (k ∈ src ∧ refCountOf s k = 0) := fun h => hmem ((hsetmem k).mpr h)
    simp [hmem, hn]

/-- Claim C3: `freeUnusedEnums` (full sweep) and the candidate-set variant
    remove from the tree exactly the scanned indices whose ref count is zero
    at scan time, never an index with positive ref count, and hand each
    removed index to the store's hold list exactly once (the hold list is the
    duplicate-free list of scanned zero-refcount indices, in scan order). -/
theorem c3_freeUnusedEnums_exact (fold : Nat → Nat) (s : Store) (d : Dict)
    (toRemove : List Nat) (hs : dictSorted s d) (hv : validD s d)
    (hnd : toRemove.Nodup) (hsub : ∀ k ∈ toRemove, k ∈ keysOf d) :
    keysOf (freeUnusedEnums fold s d).1 =
      (keysOf d).filter (fun k => decide (refCountOf s k ≠ 0)) ∧
    (freeUnusedEnums fold s d).2 =
      (keysOf d).filter (fun k => decide (refCountOf s k = 0)) ∧
    (freeUnusedEnums fold s d).2.Nodup ∧
    keysOf (freeUnusedEnumsOnCandidates fold s d toRemove).1 =
      (keysOf d).filter (fun k => decide (¬ (k ∈ toRemove ∧ refCountOf s k = 0))) ∧
    (freeUnusedEnumsOnCandidates fold s d toRemove).2 =
      toRemove.filter (fun k => decide (refCountOf s k = 0)) ∧
    (freeUnusedEnumsOnCandidates fold s d toRemove).2.Nodup := by
  have hscanF := scan_spec s (keysOf d) [] []
  have hscanC := scan_spec s toRemove [] []
  have hFfst : (freeUnusedEnums fold s d).1 = removeUnusedEnums fold s d
      ((keysOf d).foldl
        (fun uu k => if refCountOf s k = 0 then setInsert k uu else uu) []) := by
    rw [freeUnusedEnums, hscanF]
  have hFsnd : (freeUnusedEnums fold s d).2 =
      (keysOf d).filter (fun k => decide (refCountOf s k = 0)) := by
    rw [freeUnusedEnums, hscanF]
    simp
  have hCfst : (freeUnusedEnumsOnCandidates fold s d toRemove).1 =
      removeUnusedEnums fold s d
      (toRemove.foldl
        (fun uu k => if refCountOf s k = 0 then setInsert k uu else uu) []) := by
    rw [freeUnusedEnumsOnCandidates, hscanC]
  have hCsnd : (freeUnusedEnumsOnCandidates fold s d toRemove).2 =
      toRemove.filter (fun k => decide (refCountOf s k = 0)) := by
    rw [freeUnusedEnumsOnCandidates, hscanC]
    simp
  refine ⟨?_, hFsnd, ?_, ?_, hCsnd, ?_⟩
  · rw [hFfst, removeScanned_keys fold s d (keysOf d) hs hv (fun k hk => hk)]
    apply List.filter_congr
    intro k hk
    by_cases hrc : refCountOf s k = 0
    · simp [hk, hrc]
    · simp [hk, hrc]
  · rw [hFsnd]
    exact (keysOf_nodup hs).filter _
  · rw [hCfst]
    exact removeScanned_keys fold s d toRemove hs hv hsub
  · rw [hCsnd]
    exact hnd.filter _

theorem c3_freeUnusedEnums_exact_witness :
    dictSorted [(⟨3, 0⟩ : Entry), ⟨5, 2⟩, ⟨8, 0⟩] [(0, none), (1, none), (2, none)] ∧
    validD [(⟨3, 0⟩ : Entry), ⟨5, 2⟩, ⟨8, 0⟩] [(0, none), (1, none), (2, none)] ∧
    ([2] : List Nat).Nodup ∧ (∀ k ∈ ([2] : List Nat), k ∈ keysOf [(0, none), (1, none), (2, none)]) ∧
    (keysOf (freeUnusedEnums (fun n => n) [⟨3, 0⟩, ⟨5, 2⟩, ⟨8, 0⟩]
        [(0, none), (1, none), (2, none)]).1 =
      (keysOf [(0, none), (1, none), (2, none)]).filter
        (fun k => decide (refCountOf [⟨3, 0⟩, ⟨5, 2⟩, ⟨8, 0⟩] k ≠ 0)) ∧
    (freeUnusedEnums (fun n => n) [⟨3, 0⟩, ⟨5, 2⟩, ⟨8, 0⟩]
        [(0, none), (1, none), (2, none)]).2 =
      (keysOf [(0, none), (1, none), (2, none)]).filter
        (fun k => decide (refCountOf [⟨3, 0⟩, ⟨5, 2⟩, ⟨8, 0⟩] k = 0)) ∧
    (freeUnusedEnums (fun n => n) [⟨3, 0⟩, ⟨5, 2⟩, ⟨8, 0⟩]
        [(0, none), (1, none), (2, none)]).2.Nodup ∧
    keysOf (freeUnusedEnumsOnCandidates (fun n => n) [⟨3, 0⟩, ⟨5, 2⟩, ⟨8, 0⟩]
        [(0, none), (1, none), (2, none)] [2]).1 =
      (keysOf [(0, none), (1, none), (2, none)]).filter
        (fun k => decide (¬ (k ∈ ([2] : List Nat) ∧
          refCountOf [⟨3, 0⟩, ⟨5, 2⟩, ⟨8, 0⟩] k = 0))) ∧
    (freeUnusedEnumsOnCandidates (fun n => n) [⟨3, 0⟩, ⟨5, 2⟩, ⟨8, 0⟩]
        [(0, none), (1, none), (2, none)] [2]).2 =
      ([2] : List Nat).filter
        (fun k => decide (refCountOf [⟨3, 0⟩, ⟨5, 2⟩, ⟨8, 0⟩] k = 0)) ∧
    (freeUnusedEnumsOnCandidates (fun n => n) [⟨3, 0⟩, ⟨5, 2⟩, ⟨8, 0⟩]
        [(0, none), (1, none), (2, none)] [2]).2.Nodup) :=
  ⟨by decide, by decide, by decide, by decide,
    c3_freeUnusedEnums_exact (fun n => n) [⟨3, 0⟩, ⟨5, 2⟩, ⟨8, 0⟩]
      [(0, none), (1, none), (2, none)] [2] (by decide) (by decide) (by decide)
      (by decide)⟩

lemma takeWhile_folded_eq_filter (fold : Nat → Nat) (s : Store) (probe : Nat)
    (hm : Mono fold) :
    ∀ l : Dict, dictSorted s l → (∀ kv ∈ l, fold probe ≤ fold (valOf s kv.1)) →
      (l.takeWhile (fun kv => decide (¬ fold probe < fold (valOf s kv.1)))).map Prod.fst =
        (l.filter (fun kv => decide (fold (valOf s kv.1) = fold probe))).map Prod.fst := by
  intro l
  induction l with
  | nil =>
    intro _ _
    rfl
  | cons kv rest ih =>
    intro hs hge
    obtain ⟨hhead, htail⟩ := dictSorted_cons hs
    rw [List.takeWhile_cons, List.filter_cons]
    by_cases h1 : fold (valOf s kv.1) = fold probe
    · rw [if_pos (by simp only [decide_eq_true_eq]; omega),
        if_pos (by simp only [decide_eq_true_eq]; omega)]
      rw [List.map_cons, List.map_cons, ih htail ?_]
      intro kv2 hkv2
      have hlt := hhead _ (List.mem_map.mpr ⟨kv2, hkv2, rfl⟩)
      have := hm _ _ (le_of_lt hlt)
      omega
    · have hgt : fold probe < fold (valOf s kv.1) :=
        lt_of_le_of_ne (hge kv (by simp)) (Ne.symm h1)
      rw [if_neg (by simp only [decide_eq_true_eq]; omega),
        if_neg (by simp only [decide_eq_true_eq]; omega)]
      have hrest : rest.filter
          (fun kv2 => decide (fold (valOf s kv2.1) = fold probe)) = [] := by
        rw [List.filter_eq_nil_iff]
        intro a ha
        have hlt := hhead _ (List.mem_map.mpr ⟨a, ha, rfl⟩)
        have := hm _ _ (le_of_lt hlt)
        simp only [decide_eq_true_eq]
        omega
      rw [hrest]

lemma findMatchingEnums_spec (fold : Nat → Nat) (s : Store) (probe : Nat)
    (hm : Mono fold) :
    ∀ d : Dict, dictSorted s d →
      findMatchingEnums fold s probe d =
        (d.filter (fun kv => decide (fold (valOf s kv.1) = fold probe))).map Prod.fst := by
  intro d
  induction d with
  | nil =>
    intro _
    rfl
  | cons kv rest ih =>
    intro hs
    obtain ⟨hhead, htail⟩ := dictSorted_cons hs
    rw [findMatchingEnums, frozenView, foldedLowerBound, List.filter_cons]
    by_cases h1 : fold (valOf s kv.1) < fold probe
    · rw [if_pos h1, List.drop_succ_cons]
      have hrec := ih htail
      rw [findMatchingEnums, frozenView] at hrec
      rw [hrec, if_neg (by simp only [decide_eq_true_eq]; omega)]
    · rw [if_neg h1, List.drop_zero, List.takeWhile_cons]
      by_cases h2 : fold probe < fold (valOf s kv.1)
      · rw [if_neg (by simp only [decide_eq_true_eq]; omega),
          if_neg (by simp only [decide_eq_true_eq]; omega)]
        have hrest : rest.filter
            (fun kv2 => decide (fold (valOf s kv2.1) = fold probe)) = [] := by
          rw [List.filter_eq_nil_iff]
          intro a ha
          have hlt := hhead _ (List.mem_map.mpr ⟨a, ha, rfl⟩)
          have := hm _ _ (le_of_lt hlt)
          simp only [decide_eq_true_eq]
          omega
        rw [hrest]
      · have heq : fold (valOf s kv.1) = fold probe := by omega
        rw [if_pos (by simp only [decide_eq_true_eq]; omega),
          if_pos (by simp only [decide_eq_true_eq]; omega)]
        rw [List.map_cons, List.map_cons,
          takeWhile_folded_eq_filter fold s probe hm rest htail ?_]
        intro kv2 hkv2
        have hlt := hhead _ (List.mem_map.mpr ⟨kv2, hkv2, rfl⟩)
        have := hm _ _ (le_of_lt hlt)
        omega

/-- Claim C8: `findMatchingEnums` with a folded comparator bound to a probe
    value returns, in ascending exact order, the enum handles of exactly those
    entries of the frozen snapshot whose key's value is folded-equal to the
    probe (`cmp` is zero in both directions, i.e. the folded images agree):
    its result is the in-order key list of the folded-equal entries, and it is
    empty exactly when no entry is folded-equal. -/
theorem c8_findMatchingEnums_folded (fold : Nat → Nat) (s : Store) (probe : Nat)
    (d : Dict) (hm : Mono fold) (hs : dictSorted s d) :
    findMatchingEnums fold s probe d =
      (d.filter (fun kv => decide (fold (valOf s kv.1) = fold probe))).map Prod.fst :=
  findMatchingEnums_spec fold s probe hm d hs

theorem c8_findMatchingEnums_folded_witness :
    Mono (fun n => n / 2) ∧
    dictSorted [(⟨4, 1⟩ : Entry), ⟨5, 1⟩, ⟨7, 1⟩] [(0, none), (1, none), (2, none)] ∧
    findMatchingEnums (fun n => n / 2) [⟨4, 1⟩, ⟨5, 1⟩, ⟨7, 1⟩] 5
        [(0, none), (1, none), (2, none)] =
      (([(0, none), (1, none), (2, none)] : Dict).filter
        (fun kv => decide
          (valOf [⟨4, 1⟩, ⟨5, 1⟩, ⟨7, 1⟩] kv.1 / 2 = 5 / 2))).map Prod.fst ∧
    findMatchingEnums (fun n => n / 2) [⟨4, 1⟩, ⟨5, 1⟩, ⟨7, 1⟩] 5
        [(0, none), (1, none), (2, none)] = [0, 1] :=
  ⟨fun a b h => Nat.div_le_div_right h, by decide,
    c8_findMatchingEnums_folded (fun n => n / 2) [⟨4, 1⟩, ⟨5, 1⟩, ⟨7, 1⟩] 5
      [(0, none), (1, none), (2, none)] (fun a b h => Nat.div_le_div_right h)
      (by decide),
    by decide⟩

lemma insertFolded_chain (fold : Nat → Nat) (probe : Nat) (hm : Mono fold) :
    ∀ l : List (Nat × Option Nat), (l.map Prod.fst).Pairwise (· < ·) →
      (∀ vp ∈ l, vp.1 ≠ probe) → l.Chain' (foldedRel fold) →
      (insertFolded fold probe l).Chain' (foldedRel fold) := by
  intro l
  induction l with
  | nil =>
    intro _ _ _
    exact List.chain'_singleton _
  | cons vp rest ih =>
    intro hp habs hch
    rw [List.map_cons, List.pairwise_cons] at hp
    rw [List.chain'_cons'] at hch
    rw [insertFolded.eq_def]
    dsimp only
    by_cases h1 : vp.1 < probe
    · rw [if_pos h1, List.chain'_cons']
      refine ⟨?_, ih hp.2 (fun x hx => habs x (by simp [hx])) hch.2⟩
      intro y hy
      cases rest with
      | nil =>
        simp only [insertFolded, List.head?_cons, Option.mem_some_iff] at hy
        subst hy
        intro hsome
        simp at hsome
      | cons vp2 rest2 =>
        rw [insertFolded.eq_def] at hy
        dsimp only at hy
        by_cases h2 : vp2.1 < probe
        · rw [if_pos h2] at hy
          simp only [List.head?_cons, Option.mem_some_iff] at hy
          subst hy
          exact hch.1 vp2 (by simp)
        · rw [if_neg h2] at hy
          by_cases h3 : vp2.2.isSome ∧ ¬ fold probe < fold vp2.1
          · rw [if_pos h3] at hy
            simp only [List.head?_cons, Option.mem_some_iff] at hy
            subst hy
            intro _
            have hne2 : vp2.1 ≠ probe := habs vp2 (by simp)
            have hfle : fold probe ≤ fold vp2.1 := hm _ _ (by omega)
            have hfeq : fold probe = fold vp2.1 := by
              rcases h3 with ⟨_, h3b⟩
              omega
            have hne := hch.1 vp2 (by simp) h3.1
            dsimp only
            rw [hfeq]
            exact hne
          · rw [if_neg h3] at hy
            simp only [List.head?_cons, Option.mem_some_iff] at hy
            subst hy
            intro hsome
            simp at hsome
    · rw [if_neg h1]
      by_cases h3 : vp.2.isSome ∧ ¬ fold probe < fold vp.1
      · rw [if_pos h3, List.chain'_cons', List.chain'_cons']
        refine ⟨?_, ?_, hch.2⟩
        · intro y hy
          simp only [List.head?_cons, Option.mem_some_iff] at hy
          subst hy
          intro hsome
          simp at hsome
        · intro y hy
          exact hch.1 y hy
      · rw [if_neg h3, List.chain'_cons', List.chain'_cons']
        refine ⟨?_, hch.1, hch.2⟩
        intro y hy
        simp only [List.head?_cons, Option.mem_some_iff] at hy
        subst hy
        intro hsome
        rcases not_and_or.mp h3 with h | h
        · exact absurd hsome h
        · have hlt : fold probe < fold vp.1 := not_not.mp h
          dsimp only
          omega

lemma removeFolded_chain (fold : Nat → Nat) (v : Nat) (hm : Mono fold) :
    ∀ l : List (Nat × Option Nat), (l.map Prod.fst).Pairwise (· < ·) →
      l.Chain' (foldedRel fold) → (removeFolded fold v l).Chain' (foldedRel fold) := by
  intro l
  induction l with
  | nil =>
    intro _ _
    exact List.chain'_nil
  | cons vp rest ih =>
    intro hp hch
    rw [List.map_cons, List.pairwise_cons] at hp
    rw [List.chain'_cons'] at hch
    rw [removeFolded.eq_def]
    dsimp only
    by_cases h1 : vp.1 < v
    · rw [if_pos h1, List.chain'_cons']
      refine ⟨?_, ih hp.2 hch.2⟩
      intro y hy
      cases rest with
      | nil =>
        simp [removeFolded] at hy
      | cons vp2 rest2 =>
        rw [removeFolded.eq_def] at hy
        dsimp only at hy
        have hp2 := hp.2
        rw [List.map_cons, List.pairwise_cons] at hp2
        by_cases h2 : vp2.1 < v
        · rw [if_pos h2] at hy
          simp only [List.head?_cons, Option.mem_some_iff] at hy
          subst hy
          exact hch.1 vp2 (by simp)
        · rw [if_neg h2] at hy
          by_cases h3 : vp2.1 = v
          · rw [if_pos h3] at hy
            cases rest2 with
            | nil =>
              simp at hy
            | cons vp3 rest3 =>
              dsimp only at hy
              have hch2 := hch.2
              rw [List.chain'_cons'] at hch2
              by_cases h5 : vp2.2.isSome ∧ vp3.2 = none ∧ ¬ fold v < fold vp3.1
              · rw [if_pos h5] at hy
                simp only [List.head?_cons, Option.mem_some_iff] at hy
                subst hy
                intro _
                have hlt23 : vp2.1 < vp3.1 := hp2.1 vp3.1 (by simp)
                have hfle : fold vp2.1 ≤ fold vp3.1 := hm _ _ (le_of_lt hlt23)
                have hfeq : fold vp2.1 = fold vp3.1 := by
                  rcases h5 with ⟨_, _, h5c⟩
                  rw [← h3] at h5c
                  omega
                have hne := hch.1 vp2 (by simp) h5.1
                dsimp only
                rw [← hfeq]
                exact hne
              · rw [if_neg h5] at hy
                simp only [List.head?_cons, Option.mem_some_iff] at hy
                subst hy
                intro hsome
                have hne23 := hch2.1 vp3 (by simp) hsome
                have h12 : vp.1 < vp2.1 := hp.1 vp2.1 (by simp)
                have h23 : vp2.1 < vp3.1 := hp2.1 vp3.1 (by simp)
                have hle12 : fold vp.1 ≤ fold vp2.1 := hm _ _ (le_of_lt h12)
                have hle23 : fold vp2.1 ≤ fold vp3.1 := hm _ _ (le_of_lt h23)
                omega
          · rw [if_neg h3] at hy
            simp only [List.head?_cons, Option.mem_some_iff] at hy
            subst hy
            exact hch.1 vp2 (by simp)
    · rw [if_neg h1]
      by_cases h2 : vp.1 = v
      · rw [if_pos h2]
        cases rest with
        | nil =>
          exact List.chain'_nil
        | cons vp2 rest2 =>
          dsimp only
          have hch2 := hch.2
          rw [List.chain'_cons'] at hch2
          by_cases h5 : vp.2.isSome ∧ vp2.2 = none ∧ ¬ fold v < fold vp2.1
          · rw [if_pos h5, List.chain'_cons']
            exact ⟨fun y hy => hch2.1 y hy, hch2.2⟩
          · rw [if_neg h5]
            exact hch.2
      · rw [if_neg h2, List.chain'_cons']
        exact ⟨hch.1, hch.2⟩

lemma annotate_filterMap_snd (s : Store) :
    ∀ d : Dict, (annotate s d).filterMap Prod.snd = d.filterMap Prod.snd := by
  intro d
  induction d with
  | nil => rfl
  | cons kv rest ih =>
    rw [annotate_cons, List.filterMap_cons, List.filterMap_cons, ih]

lemma valuesOf_pairwise_annotate {s : Store} {d : Dict} (hs : dictSorted s d) :
    ((annotate s d).map Prod.fst).Pairwise (· < ·) := by
  rw [← valuesOf_eq_annotate_map]
  exact hs

lemma addRec_foldedOk (fold : Nat → Nat) {s : Store} {probe : Nat} {d : Dict}
    (hm : Mono fold) (hs : dictSorted s d) (hv : validD s d)
    (hok : foldedOk fold s d) (habs : probe ∉ valuesOf s d) :
    foldedOk fold (addRec fold s probe d).1 (addRec fold s probe d).2.1 := by
  rw [foldedOk, (addRec_inserted fold probe habs).1,
    annotate_addRec fold probe hv habs]
  apply insertFolded_chain fold probe hm _ (valuesOf_pairwise_annotate hs) _ hok
  intro vp hvp
  intro hcontra
  apply habs
  rw [valuesOf_eq_annotate_map]
  exact List.mem_map.mpr ⟨vp, hvp, hcontra⟩

lemma removeRec_foldedOk (fold : Nat → Nat) {s : Store} {ref : Nat} {d : Dict}
    (hm : Mono fold) (hs : dictSorted s d) (hok : foldedOk fold s d)
    (href : ref ∈ keysOf d) :
    foldedOk fold s (removeRec fold s ref d) := by
  rw [foldedOk, annotate_removeRec fold ref hs href]
  exact removeFolded_chain fold (valOf s ref) hm _ (valuesOf_pairwise_annotate hs) hok

lemma addRec_validD (fold : Nat → Nat) {s : Store} {probe : Nat} {d : Dict}
    (hv : validD s d) (habs : probe ∉ valuesOf s d) :
    validD (addRec fold s probe d).1 (addRec fold s probe d).2.1 := by
  rw [(addRec_inserted fold probe habs).1, validD_iff_keys]
  intro k hk
  have hmem := (addRec_keys_perm fold probe habs).mem_iff.mp hk
  rw [List.length_append, List.length_cons, List.length_nil]
  rcases List.mem_cons.mp hmem with h | h
  · omega
  · have := (validD_iff_keys s d).mp hv k h
    omega

lemma addRec_sorted (fold : Nat → Nat) {s : Store} {probe : Nat} {d : Dict}
    (hs : dictSorted s d) (hv : validD s d) (habs : probe ∉ valuesOf s d) :
    dictSorted (addRec fold s probe d).1 (addRec fold s probe d).2.1 := by
  rw [dictSorted, (addRec_inserted fold probe habs).1, valuesOf_eq_annotate_map,
    annotate_addRec fold probe hv habs, insertFolded_map_fst,
    ← valuesOf_eq_annotate_map]
  exact insertVal_pairwise habs hs

lemma applyOp_inv (fold : Nat → Nat) (hm : Mono fold) (st : Store × Dict)
    (op : DictOp) (hs : dictSorted st.1 st.2) (hv : validD st.1 st.2)
    (hok : foldedOk fold st.1 st.2) :
    dictSorted (applyOp fold st op).1 (applyOp fold st op).2 ∧
    validD (applyOp fold st op).1 (applyOp fold st op).2 ∧
    foldedOk fold (applyOp fold st op).1 (applyOp fold st op).2 := by
  cases op with
  | addOp v =>
    rw [applyOp]
    dsimp only
    rw [add_eq_addRec fold v hv]
    by_cases hpres : v ∈ valuesOf st.1 st.2
    · have hf := addRec_found fold v hs hpres
      rw [hf.1, hf.2.1]
      exact ⟨hs, hv, hok⟩
    · exact ⟨addRec_sorted fold hs hv hpres, addRec_validD fold hv hpres,
        addRec_foldedOk fold hm hs hv hok hpres⟩
  | removeOp r =>
    rw [applyOp]
    by_cases hr : r ∈ keysOf st.2
    · rw [if_pos hr]
      rw [remove_eq_removeRec]
      exact ⟨removeRec_sorted fold hs hr, removeRec_validD fold hs hv hr,
        removeRec_foldedOk fold hm hs hok hr⟩
    · rw [if_neg hr]
      exact ⟨hs, hv, hok⟩

lemma applyOps_inv (fold : Nat → Nat) (hm : Mono fold) (ops : List DictOp) :
    dictSorted (applyOps fold ops).1 (applyOps fold ops).2 ∧
    validD (applyOps fold ops).1 (applyOps fold ops).2 ∧
    foldedOk fold (applyOps fold ops).1 (applyOps fold ops).2 := by
  rw [applyOps]
  have hgen : ∀ (l : List DictOp) (st : Store × Dict), dictSorted st.1 st.2 →
      validD st.1 st.2 → foldedOk fold st.1 st.2 →
      dictSorted (l.foldl (applyOp fold) st).1 (l.foldl (applyOp fold) st).2 ∧
      validD (l.foldl (applyOp fold) st).1 (l.foldl (applyOp fold) st).2 ∧
      foldedOk fold (l.foldl (applyOp fold) st).1 (l.foldl (applyOp fold) st).2 := by
    intro l
    induction l with
    | nil =>
      intro st h1 h2 h3
      exact ⟨h1, h2, h3⟩
    | cons op rest ih =>
      intro st h1 h2 h3
      rw [List.foldl_cons]
      have := applyOp_inv fold hm st op h1 h2 h3
      exact ih _ this.1 this.2.1 this.2.2
  exact hgen ops ([], []) (by simp [dictSorted, valuesOf]) (by simp [validD])
    (by simp [foldedOk, annotate])

/-- Claim C2: the folded-dictionary payload invariant — within every maximal
    run of folded-equal keys at most one entry holds a non-null posting ref,
    and the holder is the run's first key in exact order (equivalently, under
    a strictly sorted tree and a monotone fold, no payload holder has a
    folded-equal predecessor) — is preserved by `add` (which moves the
    successor's payload onto a newly inserted folded-equal key, never losing
    or duplicating the payload sequence) and by `remove` of a present key
    (which moves the removed key's payload onto a payload-free folded-equal
    successor), and it holds after every sequence of add/remove operations
    from the empty dictionary. -/
theorem c2_folded_payload_handoff (fold : Nat → Nat) (s : Store) (probe ref : Nat)
    (d : Dict) (ops : List DictOp) (hm : Mono fold) (hs : dictSorted s d)
    (hv : validD s d) (hok : foldedOk fold s d) (href : ref ∈ keysOf d) :
    foldedOk fold (EnumStoreFoldedDictionary.add fold s probe d).1
      (EnumStoreFoldedDictionary.add fold s probe d).2.1 ∧
    ((EnumStoreFoldedDictionary.add fold s probe d).2.1).filterMap Prod.snd =
      d.filterMap Prod.snd ∧
    foldedOk fold s (EnumStoreFoldedDictionary.remove fold s d ref) ∧
    foldedOk fold (applyOps fold ops).1 (applyOps fold ops).2 := by
  have heq : EnumStoreFoldedDictionary.add fold s probe d = addRec fold s probe d :=
    add_eq_addRec fold probe hv
  refine ⟨?_, ?_, ?_, (applyOps_inv fold hm ops).2.2⟩
  · rw [heq]
    by_cases hpres : probe ∈ valuesOf s d
    · have hf := addRec_found fold probe hs hpres
      rw [hf.1, hf.2.1]
      exact hok
    · exact addRec_foldedOk fold hm hs hv hok hpres
  · rw [heq]
    by_cases hpres : probe ∈ valuesOf s d
    · rw [(addRec_found fold probe hs hpres).2.1]
    · rw [← annotate_filterMap_snd (addRec fold s probe d).1,
        (addRec_inserted fold probe hpres).1, annotate_addRec fold probe hv hpres,
        insertFolded_filterMap_snd, annotate_filterMap_snd]
  · rw [remove_eq_removeRec]
    exact removeRec_foldedOk fold hm hs hok href

theorem c2_folded_payload_handoff_witness :
    Mono (fun n => n / 2) ∧
    dictSorted [(⟨10, 1⟩ : Entry), ⟨11, 1⟩] [(1, some 7)] ∧
    validD [(⟨10, 1⟩ : Entry), ⟨11, 1⟩] [(1, some 7)] ∧
    foldedOk (fun n => n / 2) [(⟨10, 1⟩ : Entry), ⟨11, 1⟩] [(1, some 7)] ∧
    1 ∈ keysOf [((1 : Nat), some (7 : Nat))] ∧
    (foldedOk (fun n => n / 2)
      (EnumStoreFoldedDictionary.add (fun n => n / 2) [⟨10, 1⟩, ⟨11, 1⟩] 10
        [(1, some 7)]).1
      (EnumStoreFoldedDictionary.add (fun n => n / 2) [⟨10, 1⟩, ⟨11, 1⟩] 10
        [(1, some 7)]).2.1 ∧
    ((EnumStoreFoldedDictionary.add (fun n => n / 2) [⟨10, 1⟩, ⟨11, 1⟩] 10
        [(1, some 7)]).2.1).filterMap Prod.snd =
      ([((1 : Nat), some (7 : Nat))] : Dict).filterMap Prod.snd ∧
    foldedOk (fun n => n / 2) [⟨10, 1⟩, ⟨11, 1⟩]
      (EnumStoreFoldedDictionary.remove (fun n => n / 2) [⟨10, 1⟩, ⟨11, 1⟩]
        [(1, some 7)] 1) ∧
    foldedOk (fun n => n / 2)
      (applyOps (fun n => n / 2) [DictOp.addOp 4, DictOp.addOp 5, DictOp.removeOp 0]).1
      (applyOps (fun n => n / 2)
        [DictOp.addOp 4, DictOp.addOp 5, DictOp.removeOp 0]).2) :=
  ⟨fun a b h => Nat.div_le_div_right h, by decide, by decide,
    List.chain'_singleton _, by decide,
    c2_folded_payload_handoff (fun n => n / 2) [⟨10, 1⟩, ⟨11, 1⟩] 10 1 [(1, some 7)]
      [DictOp.addOp 4, DictOp.addOp 5, DictOp.removeOp 0]
      (fun a b h => Nat.div_le_div_right h) (by decide) (by decide)
      (List.chain'_singleton _) (by decide)⟩

end Vespa
